import Mathlib

/-!
The qt-wall-xml wallpaper: scheduling, image cache and aspect-fill geometry

A shallow embedding of `src/main.cpp` (class `WallpaperWindow`) and of the
playlist builder `src/xml-builder/main.cpp`.

Conventions of the embedding

* C++ `int` values are integers of `Int`; every `int` addition of the source is
  followed by `wrap32`, the two's complement wrap-around to 32 bits.
  `qint64` values are integers of `Int` (the differences of timestamps and the
  remainders that occur are far from the 64-bit range).
* The C++ operator `%` truncates towards zero: it is `Int.tmod`.
* `QVector` and `QStringList` are `List`; `QHash<QString, QImage>` is an
  association list with at most one entry per key.
* `qreal`/`double` values are exact rationals.
* The file system is an input: the image `QImage(path)` would decode is passed
  in by the caller, `QImage.null` standing for a failed decode.
* Two instrumentation fields record effects that the source performs on the
  outside world: the paths handed to the `QImage(path)` decoder, and the frames
  painted by `renderWallpaper`.
* A schedule file is given by the tokens that `QXmlStreamReader` reports for
  it. A loop that reads tokens carries a bound on its iterations and yields
  `none` where the source loops forever.
* The builder is modelled from the sorted vector of image paths on; what it
  writes is given as the list of entries, not as text.
-/

namespace QtWallXml

/-! ## Data model (main.cpp 16-30) -/

/-- Payload of a still image event (main.cpp 16-19). -/
structure StaticEvent where
  duration : Int
  file : String
  deriving DecidableEq

/-- Payload of a crossfade event (main.cpp 21-25). -/
structure TransitionEvent where
  duration : Int
  fromFile : String
  toFile : String
  deriving DecidableEq

/-- One scheduled unit: the discriminant `type` together with its payload
(main.cpp 27-30). -/
inductive Event where
  | Static (se : StaticEvent)
  | Transition (te : TransitionEvent)
  deriving DecidableEq

/-- The duration read at main.cpp 221-224 and 241-243, by event type. -/
def Event.duration : Event → Int
  | .Static se => se.duration
  | .Transition te => te.duration

/-! ## Machine arithmetic -/

/-- Two's complement wrap-around of an integer to the 32-bit `int` range. -/
def wrap32 (x : Int) : Int := (x + 2147483648) % 4294967296 - 2147483648

/-- `QDateTime` as seconds on the local time line; `none` is the invalid
(default constructed) value. -/
abbrev QDateTime := Option Int

/-- `QDateTime::secsTo`: the signed number of seconds from `a` to `b`, and `0`
when either value is invalid. -/
def secsTo (a b : QDateTime) : Int :=
  match a, b with
  | some x, some y => y - x
  | _, _ => 0

/-! ## Scheduler (main.cpp 218-254) -/

/-- `WallpaperWindow::totalDuration` (main.cpp 218-227): the `int` accumulation
of all durations in sequence order. -/
def totalDuration (events : List Event) : Int :=
  events.foldl (fun total e => wrap32 (total + e.duration)) 0

/-- The scan loop of main.cpp 238-249, started at index `index` with
`accumulated` seconds already passed, over the events not yet visited. The
result is the pair `(index, accumulated)` at loop exit. -/
def scanEvents (loopSec : Int) : List Event → Int → Nat → Nat × Int
  | [], accumulated, index => (index, accumulated)
  | e :: rest, accumulated, index =>
    if loopSec < wrap32 (accumulated + e.duration) then (index, accumulated)
    else scanEvents loopSec rest (wrap32 (accumulated + e.duration)) (index + 1)

/-- The scheduler step of `updateWallpaper` (main.cpp 230-254) as a function of
the event list and of `secondsSinceStart`: `none` when the tick returns early
(no events, or a cycle duration of zero), otherwise the stored pair
`(m_currentEventIndex, m_elapsedInEvent)`. -/
def schedule (events : List Event) (secondsSinceStart : Int) : Option (Nat × Int) :=
  if events.isEmpty then none
  else
    let cycleDuration := totalDuration events
    if cycleDuration = 0 then none
    else
      let loopSec := Int.tmod secondsSinceStart cycleDuration
      let r := scanEvents loopSec events 0 0
      let index := if r.1 ≥ events.length then 0 else r.1
      some (index, loopSec - r.2)

/-- The scheduler step at wall-clock time `now` for a timeline anchored at
`anchor` (main.cpp 232). -/
def resolve (events : List Event) (anchor now : Int) : Option (Nat × Int) :=
  schedule events (secsTo (some anchor) (some now))

/-- `qBound(min, value, max)` of QtGlobal: `qMax(min, qMin(max, value))`. -/
def qBound (lo value hi : ℚ) : ℚ := max lo (min hi value)

/-- The blend progress of main.cpp 313-314. The quotient is a `double`: for a
duration of 0 it is positive infinity when the elapsed time is positive, which
`qBound` turns into 1, and negative infinity or not-a-number otherwise, which
`qBound` turns into 0. -/
def progress (elapsedInEvent duration : Int) : ℚ :=
  if duration = 0 then (if 0 < elapsedInEvent then 1 else 0)
  else qBound 0 ((elapsedInEvent : ℚ) / (duration : ℚ)) 1

/-! ## Image cache (main.cpp 60-62, 132-152) -/

/-- A decoded raster image, or the null image that `QImage(path)` yields when
decoding fails and that `QHash::value` yields for an absent key. -/
inductive QImage where
  | null
  | loaded (width height : Int) (pixels : Nat)
  deriving DecidableEq

/-- `QImage::isNull`. -/
def QImage.isNull : QImage → Bool
  | .null => true
  | .loaded _ _ _ => false

/-- `QHash<QString, QImage>`: the entries, at most one per key. -/
structure QHash where
  entries : List (String × QImage)
  deriving DecidableEq

/-- The keys present in the hash. -/
def QHash.keys (m : QHash) : List String := m.entries.map Prod.fst

/-- `QHash::size`. -/
def QHash.size (m : QHash) : Nat := m.entries.length

/-- `QHash::contains`. -/
def QHash.contains (m : QHash) (key : String) : Bool := decide (key ∈ m.keys)

/-- `QHash::insert`: the value of an existing key is replaced, a new key gets a
new entry. -/
def QHash.insert (m : QHash) (key : String) (value : QImage) : QHash :=
  if m.contains key then
    ⟨m.entries.map (fun e => if e.1 = key then (key, value) else e)⟩
  else ⟨m.entries ++ [(key, value)]⟩

/-- `QHash::remove`. -/
def QHash.remove (m : QHash) (key : String) : QHash :=
  ⟨m.entries.filter (fun e => decide (e.1 ≠ key))⟩

/-- `QHash::value`: the stored image, or a default constructed (null) image
when the key is absent. -/
def QHash.value (m : QHash) (key : String) : QImage :=
  match m.entries.find? (fun e => decide (e.1 = key)) with
  | some e => e.2
  | none => QImage.null

/-- `QStringList::removeAll`. -/
def removeAll (l : List String) (path : String) : List String :=
  l.filter (fun k => decide (k ≠ path))

/-- The members of `WallpaperWindow` that `cacheImage` works on, together with
`decoded`, the record of every `QImage(path)` construction (the path and the
image the decoder returned) in the order they were performed. -/
structure ImageCache where
  m_imageCache : QHash
  m_cacheOrder : List String
  decoded : List (String × QImage)
  deriving DecidableEq

/-- The constant `m_cacheLimit` (main.cpp 62). -/
def m_cacheLimit : Nat := 3

/-- The eviction loop of main.cpp 148-151: while the recency list is longer
than `m_cacheLimit`, take its first key and remove that key from the hash. -/
def evict : List String → QHash → List String × QHash
  | [], cache => ([], cache)
  | oldest :: rest, cache =>
    if (oldest :: rest).length > m_cacheLimit then evict rest (cache.remove oldest)
    else (oldest :: rest, cache)

/-- `WallpaperWindow::cacheImage` (main.cpp 132-152). `img` is the image that
`QImage(path)` decodes at the time of the call; it is looked at only on a
cache miss. -/
def cacheImage (c : ImageCache) (path : String) (img : QImage) : ImageCache :=
  if c.m_imageCache.contains path then
    { c with m_cacheOrder := removeAll c.m_cacheOrder path ++ [path] }
  else
    let c1 := { c with decoded := c.decoded ++ [(path, img)] }
    if img.isNull then c1
    else
      let r := evict (c1.m_cacheOrder ++ [path]) (c1.m_imageCache.insert path img)
      { c1 with m_cacheOrder := r.1, m_imageCache := r.2 }

/-- The cache of a freshly constructed window: nothing stored, nothing decoded. -/
def ImageCache.empty : ImageCache := ⟨⟨[]⟩, [], []⟩

/-- A sequence of `cacheImage` calls, each given as the path and the image the
decoder yields for it at that moment. -/
def cacheImages (c : ImageCache) (calls : List (String × QImage)) : ImageCache :=
  calls.foldl (fun acc call => cacheImage acc call.1 call.2) c

/-- The number of `cacheImage` calls of `calls` made after the last call that
referenced `key` (the length of `calls` when `key` was never referenced): the
larger, the less recently used. -/
def callsSinceLastUse (key : String) (calls : List (String × QImage)) : Nat :=
  (calls.map Prod.fst).reverse.indexOf key

/-- The number of `QImage(path)` constructions recorded in `c`. -/
def decodeCount (c : ImageCache) : Nat := c.decoded.length

/-- The number of recorded decodes of `path` that produced an image. -/
def successfulDecodes (c : ImageCache) (path : String) : Nat :=
  (c.decoded.filter (fun d => decide (d.1 = path) && !d.2.isNull)).length

/-! ## Aspect-fill geometry (main.cpp 285-309) -/

/-- `QSize`. -/
structure QSize where
  width : Int
  height : Int
  deriving DecidableEq

/-- `QRect`, by origin and size. -/
structure QRect where
  x : Int
  y : Int
  width : Int
  height : Int
  deriving DecidableEq

/-- `QRectF`, by origin and size. -/
structure QRectF where
  x : ℚ
  y : ℚ
  width : ℚ
  height : ℚ
  deriving DecidableEq

/-- `qRound` of QtGlobal: the nearest integer, halves away from zero. -/
def qRound (d : ℚ) : Int :=
  if 0 ≤ d then Int.floor (d + 1 / 2) else Int.ceil (d - 1 / 2)

/-- The scale factor of main.cpp 292-295. -/
def fillScale (targetSize sourceSize : QSize) : ℚ :=
  max ((targetSize.width : ℚ) / (sourceSize.width : ℚ))
      ((targetSize.height : ℚ) / (sourceSize.height : ℚ))

/-- `QSize operator*(const QSize &, qreal)`: both sides scaled, then rounded. -/
def QSize.scale (s : QSize) (c : ℚ) : QSize :=
  ⟨qRound ((s.width : ℚ) * c), qRound ((s.height : ℚ) * c)⟩

/-- The scaled size of main.cpp 297. -/
def scaledSize (targetSize sourceSize : QSize) : QSize :=
  sourceSize.scale (fillScale targetSize sourceSize)

/-- The destination rectangle of main.cpp 299-304 for a source of size
`sourceSize` drawn into the window rectangle `rect`. -/
def targetRect (rect : QRect) (sourceSize : QSize) : QRectF :=
  let scaled := scaledSize ⟨rect.width, rect.height⟩ sourceSize
  ⟨(rect.x : ℚ) + ((rect.width - scaled.width : Int) : ℚ) / 2,
   (rect.y : ℚ) + ((rect.height - scaled.height : Int) : ℚ) / 2,
   (scaled.width : ℚ), (scaled.height : ℚ)⟩

/-- One `painter.drawImage` call: where, what, and with which opacity. -/
structure DrawOp where
  target : QRectF
  image : QImage
  opacity : ℚ
  deriving DecidableEq

/-- The lambda `drawImagePreserveAspectCrop` (main.cpp 285-309): nothing is
drawn for a null image. -/
def drawImagePreserveAspectCrop (rect : QRect) (img : QImage) (opacity : ℚ) : List DrawOp :=
  match img with
  | .null => []
  | .loaded w h _ => [⟨targetRect rect ⟨w, h⟩, img, opacity⟩]

/-! ## The window and its tick (main.cpp 35-73, 229-325) -/

/-- The state of `WallpaperWindow` (main.cpp 55-72); `painted` records the
frames drawn by `renderWallpaper`, each as the list of its `drawImage` calls on
top of the black fill. -/
structure WallpaperWindow where
  m_startTime : QDateTime
  m_events : List Event
  cache : ImageCache
  m_currentStaticImage : QImage
  m_transitionFromImage : QImage
  m_transitionToImage : QImage
  m_inTransition : Bool
  m_currentEventIndex : Nat
  m_elapsedInEvent : Int
  painted : List (List DrawOp)
  deriving DecidableEq

/-- What a tick reads from outside the window: the clock, the decoder (the
image `QImage(path)` yields for each path), `isExposed()` and `geometry()`. -/
structure World where
  currentDateTime : Int
  decode : String → QImage
  isExposed : Bool
  geometry : QRect

/-- The duration `te.duration` read at main.cpp 312: that of the event at
`m_currentEventIndex`, and the value-initialised `0` of `QVariant::value` when
that event is not a transition. -/
def transitionDuration (s : WallpaperWindow) : Int :=
  match s.m_events[s.m_currentEventIndex]? with
  | some (.Transition te) => te.duration
  | _ => 0

/-- `WallpaperWindow::renderWallpaper` (main.cpp 276-325): the `drawImage`
calls issued for the window rectangle `rect`. -/
def renderWallpaper (s : WallpaperWindow) (rect : QRect) : List DrawOp :=
  if s.m_inTransition then
    drawImagePreserveAspectCrop rect s.m_transitionFromImage 1
      ++ drawImagePreserveAspectCrop rect s.m_transitionToImage
          (progress s.m_elapsedInEvent (transitionDuration s))
  else drawImagePreserveAspectCrop rect s.m_currentStaticImage 1

/-- The image loading part of the tick (main.cpp 256-270) for the event
`event`. -/
def loadEventImages (w : World) (s : WallpaperWindow) (event : Event) : WallpaperWindow :=
  match event with
  | .Static se =>
    let c := cacheImage s.cache se.file (w.decode se.file)
    { s with cache := c, m_currentStaticImage := c.m_imageCache.value se.file,
             m_inTransition := false }
  | .Transition te =>
    let c1 := cacheImage s.cache te.fromFile (w.decode te.fromFile)
    let c2 := cacheImage c1 te.toFile (w.decode te.toFile)
    { s with cache := c2, m_transitionFromImage := c2.m_imageCache.value te.fromFile,
             m_transitionToImage := c2.m_imageCache.value te.toFile,
             m_inTransition := true }

/-- `WallpaperWindow::updateWallpaper` (main.cpp 229-274). -/
def updateWallpaper (w : World) (s : WallpaperWindow) : WallpaperWindow :=
  match schedule s.m_events (secsTo s.m_startTime (some w.currentDateTime)) with
  | none => s
  | some (index, elapsed) =>
    let s1 := { s with m_currentEventIndex := index, m_elapsedInEvent := elapsed }
    let s2 := match s1.m_events[index]? with
      | some event => loadEventImages w s1 event
      | none => s1
    if w.isExposed then { s2 with painted := s2.painted ++ [renderWallpaper s2 w.geometry] }
    else s2

/-! ## Schedule loading (main.cpp 154-216) -/

/-- A token reported by `QXmlStreamReader`: its `tokenType()` together with
the `name()` of an element token or the text of a character token. `Comment`
stands for every token that carries neither (comments, processing
instructions, the document type). -/
inductive Token where
  | NoToken
  | Invalid
  | StartDocument
  | EndDocument
  | StartElement (name : String)
  | EndElement (name : String)
  | Characters (text : String)
  | Comment
  deriving DecidableEq

/-- The reader over an opened file: the tokens not yet read, the token read
last, and the error flag. Reading past the last token of `pending` is the
premature end of the document. -/
structure QXmlStreamReader where
  pending : List Token
  current : Token
  hasError : Bool
  deriving DecidableEq

/-- `QXmlStreamReader::readNext`: once an error is raised the reader stays on
the `Invalid` token. -/
def QXmlStreamReader.readNext (xml : QXmlStreamReader) : QXmlStreamReader :=
  if xml.hasError then { xml with current := .Invalid }
  else
    match xml.pending with
    | [] => { xml with current := .Invalid, hasError := true }
    | t :: rest => { pending := rest, current := t, hasError := false }

/-- `QXmlStreamReader::atEnd`: the end of the document was read, or reading was
aborted by an error. -/
def QXmlStreamReader.atEnd (xml : QXmlStreamReader) : Bool :=
  decide (xml.current = .EndDocument) || decide (xml.current = .Invalid)

/-- The loop of `QXmlStreamReader::readElementText` over the tokens that
follow a start element: text is collected up to the end element; a child
element, or the end of the tokens, raises an error and returns the text
collected so far. -/
def readElementTextLoop : List Token → String → String × QXmlStreamReader
  | [], result => (result, ⟨[], .Invalid, true⟩)
  | .Characters text :: rest, result => readElementTextLoop rest (result ++ text)
  | .Comment :: rest, result => readElementTextLoop rest result
  | .EndElement name :: rest, result => (result, ⟨rest, .EndElement name, false⟩)
  | _ :: rest, result => (result, ⟨rest, .Invalid, true⟩)

/-- `QXmlStreamReader::readElementText`, called on a start element. -/
def QXmlStreamReader.readElementText (xml : QXmlStreamReader) : String × QXmlStreamReader :=
  readElementTextLoop xml.pending ""

/-- White space as `QChar::isSpace` sees it in ASCII: tab, line feed, vertical
tab, form feed, carriage return and space. -/
def isSpace (c : Char) : Bool :=
  (9 ≤ c.toNat && c.toNat ≤ 13) || c.toNat = 32

/-- A character list with leading white space dropped. -/
def dropSpaces : List Char → List Char
  | [] => []
  | c :: cs => if isSpace c then dropSpaces cs else c :: cs

/-- The value of a list of decimal digits, `none` when a character is not a
digit. -/
def digitsValue (acc : Nat) : List Char → Option Nat
  | [] => some acc
  | c :: cs =>
    if 48 ≤ c.toNat ∧ c.toNat ≤ 57 then digitsValue (acc * 10 + (c.toNat - 48)) cs
    else none

/-- The value of an optionally signed, non-empty list of decimal digits. -/
def signedValue : List Char → Option Int
  | [] => none
  | c :: cs =>
    if c.toNat = 45 then
      (if cs.isEmpty then none else (digitsValue 0 cs).map (fun v => -(v : Int)))
    else if c.toNat = 43 then
      (if cs.isEmpty then none else (digitsValue 0 cs).map (fun v => (v : Int)))
    else (digitsValue 0 (c :: cs)).map (fun v => (v : Int))

/-- The conversion behind `QString::toInt` in base 10: white space around the
number is ignored, and a value outside the `int` range is a failure. -/
def parseInt (s : String) : Option Int :=
  match signedValue (dropSpaces (dropSpaces s.data).reverse).reverse with
  | none => none
  | some v => if -2147483648 ≤ v ∧ v ≤ 2147483647 then some v else none

/-- `QString::toInt`: the number, and `0` when the conversion fails. -/
def toInt (s : String) : Int := (parseInt s).getD 0

/-- Whether the text is a number for `QString::toInt`. -/
def isNumber (s : String) : Bool := (parseInt s).isSome

/-- The six local variables of main.cpp 166. -/
structure StartTimeFields where
  year : Int
  month : Int
  day : Int
  hour : Int
  minute : Int
  second : Int
  deriving DecidableEq

/-- The loop of main.cpp 167-177, entered with the reader on the `starttime`
start element. `none` means that the loop does not terminate: the reader is in
its error state, where `readNext` makes no progress and the end element never
comes. `fuel` bounds the iterations; every iteration outside the error state
reads at least one token, so a fuel above the number of pending tokens is
never used up. -/
def readStartTime : Nat → QXmlStreamReader → StartTimeFields →
    Option (QXmlStreamReader × StartTimeFields)
  | 0, _, _ => none
  | fuel + 1, xml, f =>
    if xml.current = .EndElement "starttime" then some (xml, f)
    else if xml.hasError then none
    else
      match xml.current with
      | .StartElement name =>
        if name = "year" then
          readStartTime fuel xml.readElementText.2.readNext
            { f with year := toInt xml.readElementText.1 }
        else if name = "month" then
          readStartTime fuel xml.readElementText.2.readNext
            { f with month := toInt xml.readElementText.1 }
        else if name = "day" then
          readStartTime fuel xml.readElementText.2.readNext
            { f with day := toInt xml.readElementText.1 }
        else if name = "hour" then
          readStartTime fuel xml.readElementText.2.readNext
            { f with hour := toInt xml.readElementText.1 }
        else if name = "minute" then
          readStartTime fuel xml.readElementText.2.readNext
            { f with minute := toInt xml.readElementText.1 }
        else if name = "second" then
          readStartTime fuel xml.readElementText.2.readNext
            { f with second := toInt xml.readElementText.1 }
        else readStartTime fuel xml.readNext f
      | _ => readStartTime fuel xml.readNext f

/-- The loop of main.cpp 181-187, entered with the reader on the `static`
start element; `none` and `fuel` as for `readStartTime`. -/
def readStatic : Nat → QXmlStreamReader → StaticEvent → Option (QXmlStreamReader × StaticEvent)
  | 0, _, _ => none
  | fuel + 1, xml, se =>
    if xml.current = .EndElement "static" then some (xml, se)
    else if xml.hasError then none
    else
      match xml.current with
      | .StartElement name =>
        if name = "duration" then
          readStatic fuel xml.readElementText.2.readNext
            { se with duration := toInt xml.readElementText.1 }
        else if name = "file" then
          readStatic fuel xml.readElementText.2.readNext
            { se with file := xml.readElementText.1 }
        else readStatic fuel xml.readNext se
      | _ => readStatic fuel xml.readNext se

/-- The loop of main.cpp 194-201, entered with the reader on the `transition`
start element; `none` and `fuel` as for `readStartTime`. -/
def readTransition : Nat → QXmlStreamReader → TransitionEvent →
    Option (QXmlStreamReader × TransitionEvent)
  | 0, _, _ => none
  | fuel + 1, xml, te =>
    if xml.current = .EndElement "transition" then some (xml, te)
    else if xml.hasError then none
    else
      match xml.current with
      | .StartElement name =>
        if name = "duration" then
          readTransition fuel xml.readElementText.2.readNext
            { te with duration := toInt xml.readElementText.1 }
        else if name = "from" then
          readTransition fuel xml.readElementText.2.readNext
            { te with fromFile := xml.readElementText.1 }
        else if name = "to" then
          readTransition fuel xml.readElementText.2.readNext
            { te with toFile := xml.readElementText.1 }
        else readTransition fuel xml.readNext te
      | _ => readTransition fuel xml.readNext te

/-- What `loadXml` takes from outside the window: `makeDateTime`, the
construction `QDateTime(QDate(year, month, day), QTime(hour, minute, second))`
of main.cpp 178, and `indeterminate`, the value of the `duration` member of a
default-initialised `StaticEvent` or `TransitionEvent` (main.cpp 180, 193). -/
structure LoadEnv where
  makeDateTime : StartTimeFields → QDateTime
  indeterminate : Int

/-- The loop of main.cpp 162-208; `none` and `fuel` as for `readStartTime`. -/
def loadLoop (env : LoadEnv) : Nat → QXmlStreamReader → WallpaperWindow →
    Option (QXmlStreamReader × WallpaperWindow)
  | 0, _, _ => none
  | fuel + 1, xml, s =>
    if xml.atEnd || xml.hasError then some (xml, s)
    else
      match xml.readNext.current with
      | .StartElement name =>
        if name = "starttime" then
          match readStartTime fuel xml.readNext ⟨0, 0, 0, 0, 0, 0⟩ with
          | none => none
          | some (xml2, f) => loadLoop env fuel xml2 { s with m_startTime := env.makeDateTime f }
        else if name = "static" then
          match readStatic fuel xml.readNext ⟨env.indeterminate, ""⟩ with
          | none => none
          | some (xml2, se) =>
            loadLoop env fuel xml2 { s with m_events := s.m_events ++ [.Static se] }
        else if name = "transition" then
          match readTransition fuel xml.readNext ⟨env.indeterminate, "", ""⟩ with
          | none => none
          | some (xml2, te) =>
            loadLoop env fuel xml2 { s with m_events := s.m_events ++ [.Transition te] }
        else loadLoop env fuel xml.readNext s
      | _ => loadLoop env fuel xml.readNext s

/-- `WallpaperWindow::loadXml` (main.cpp 154-216). `file` is `none` when the
file cannot be opened, otherwise the tokens of its content. The result is the
returned `bool` with the window state, and `none` when the call does not
return. -/
def loadXml (env : LoadEnv) (file : Option (List Token)) (s : WallpaperWindow) :
    Option (Bool × WallpaperWindow) :=
  match file with
  | none => some (false, s)
  | some tokens =>
    match loadLoop env (tokens.length + 2) ⟨tokens, .NoToken, false⟩ s with
    | none => none
    | some (xml, s1) => some (!xml.hasError, s1)

/-! ## Schedule documents (the schema read by `loadXml`) -/

/-- A `static` or `transition` element of a schedule document, by the texts of
its child elements. -/
inductive EventElem where
  | static (duration file : String)
  | transition (duration fromFile toFile : String)
  deriving DecidableEq

/-- A schedule document: the texts of the six `starttime` fields and the
event elements in document order. -/
structure ScheduleDoc where
  year : String
  month : String
  day : String
  hour : String
  minute : String
  second : String
  events : List EventElem
  deriving DecidableEq

/-- The tokens of a text: none for the empty text. -/
def textTokens (text : String) : List Token :=
  if text = "" then [] else [.Characters text]

/-- The tokens of a leaf element `<name>text</name>`. -/
def fieldTokens (name text : String) : List Token :=
  .StartElement name :: (textTokens text ++ [.EndElement name])

/-- The tokens of an event element followed by white space; `sep` is the white
space between two elements. -/
def EventElem.tokens (sep : String) : EventElem → List Token
  | .static duration file =>
    [.StartElement "static", .Characters sep] ++ fieldTokens "duration" duration ++
      [.Characters sep] ++ fieldTokens "file" file ++
      [.Characters sep, .EndElement "static", .Characters sep]
  | .transition duration fromFile toFile =>
    [.StartElement "transition", .Characters sep] ++ fieldTokens "duration" duration ++
      [.Characters sep] ++ fieldTokens "from" fromFile ++
      [.Characters sep] ++ fieldTokens "to" toFile ++
      [.Characters sep, .EndElement "transition", .Characters sep]

/-- The tokens of the `starttime` element followed by white space. -/
def ScheduleDoc.startTimeTokens (sep : String) (d : ScheduleDoc) : List Token :=
  [.StartElement "starttime", .Characters sep] ++ fieldTokens "year" d.year ++
    [.Characters sep] ++ fieldTokens "month" d.month ++
    [.Characters sep] ++ fieldTokens "day" d.day ++
    [.Characters sep] ++ fieldTokens "hour" d.hour ++
    [.Characters sep] ++ fieldTokens "minute" d.minute ++
    [.Characters sep] ++ fieldTokens "second" d.second ++
    [.Characters sep, .EndElement "starttime", .Characters sep]

/-- The tokens of all event elements. -/
def eventTokens (sep : String) : List EventElem → List Token
  | [] => []
  | e :: rest => e.tokens sep ++ eventTokens sep rest

/-- The token stream of a schedule document: the root `background` holding
`starttime` and the event elements, laid out with the white space `sep`. -/
def ScheduleDoc.tokens (sep : String) (d : ScheduleDoc) : List Token :=
  [.StartDocument, .StartElement "background", .Characters sep] ++ d.startTimeTokens sep ++
    eventTokens sep d.events ++ [.EndElement "background", .EndDocument]

/-- The event that `loadXml` builds from an event element. -/
def EventElem.toEvent : EventElem → Event
  | .static duration file => .Static ⟨toInt duration, file⟩
  | .transition duration fromFile toFile => .Transition ⟨toInt duration, fromFile, toFile⟩

/-- The duration text of an event element. -/
def EventElem.durationText : EventElem → String
  | .static duration _ => duration
  | .transition duration _ _ => duration

/-- The `starttime` fields that `loadXml` reads from a schedule document. -/
def ScheduleDoc.startTimeFields (d : ScheduleDoc) : StartTimeFields :=
  ⟨toInt d.year, toInt d.month, toInt d.day, toInt d.hour, toInt d.minute, toInt d.second⟩

/-! ## The playlist builder (xml-builder/main.cpp 10-11, 37-79) -/

/-- The constant `SECONDS_IN_DAY`. -/
def SECONDS_IN_DAY : Int := 86400

/-- The constant `TRANSITION_DURATION`. -/
def TRANSITION_DURATION : Int := 1800

/-- The `int` variable `totalImages` (xml-builder/main.cpp 44). -/
def totalImages (images : List String) : Int := wrap32 (images.length : Int)

/-- The `int` variable `staticDuration` (xml-builder/main.cpp 45-46) for a
given value of `totalImages`; the `int` division truncates towards zero. -/
def staticDuration (totalImages : Int) : Int :=
  Int.tdiv (wrap32 (SECONDS_IN_DAY - wrap32 (totalImages * TRANSITION_DURATION))) totalImages

/-- The loop of xml-builder/main.cpp 66-79 from index `i` on, with `count`
iterations left: each iteration writes a `static` and a `transition` entry. -/
def writeEntries (images : List String) (duration : Int) : Nat → Nat → List Event
  | 0, _ => []
  | count + 1, i =>
    .Static ⟨duration, images.getD i ""⟩ ::
      .Transition ⟨TRANSITION_DURATION, images.getD i "",
        images.getD ((i + 1) % images.length) ""⟩ ::
      writeEntries images duration count (i + 1)

/-- The entries written by the builder (xml-builder/main.cpp 37-79) for the
vector `images` as sorted at line 42: `none` when fewer than two images were
found. -/
def buildSchedule (images : List String) : Option (List Event) :=
  if images.length < 2 then none
  else some (writeEntries images (staticDuration (totalImages images)) images.length 0)

/-! ## Notions used to state the properties -/

/-- The sum of the durations of a list of events as integers, without any
wrap-around. -/
def durationSum (events : List Event) : Int := (events.map Event.duration).sum

/-- The timeline of the end-to-end example: `A` shown for 10 seconds, then a
20 second crossfade from `A` to `B`. -/
def exampleTimeline : List Event :=
  [.Static ⟨10, "A"⟩, .Transition ⟨20, "A", "B"⟩]

/-- Coherence of the recency list with the hash: neither lists a key twice and
both list the same keys. -/
def ImageCache.Coherent (c : ImageCache) : Prop :=
  c.m_cacheOrder.Nodup ∧ c.m_imageCache.keys.Nodup ∧
    ∀ k, k ∈ c.m_cacheOrder ↔ k ∈ c.m_imageCache.keys

/-- The recency list runs from the least to the most recently used key with
respect to the history `calls`. -/
def ImageCache.OrderedByUse (c : ImageCache) (calls : List (String × QImage)) : Prop :=
  c.m_cacheOrder.Pairwise
    (fun a b => callsSinceLastUse b calls < callsSinceLastUse a calls)

/-- A run of consecutive `cacheImage` calls on the one key `path`, the decoder
yielding `imgs` in turn. -/
def runOnKey (path : String) (imgs : List QImage) : List (String × QImage) :=
  imgs.map (fun img => (path, img))

/-- A decoder for which every path fails to decode. -/
def decodeNothing : String → QImage := fun _ => QImage.null

/-- A window that shows a decoded image and has an empty cache; its schedule is
the still image `A` for 10 seconds, anchored at second 0. -/
def showingWindow : WallpaperWindow :=
  { m_startTime := some 0, m_events := [.Static ⟨10, "A"⟩], cache := ImageCache.empty,
    m_currentStaticImage := .loaded 4 3 7, m_transitionFromImage := .null,
    m_transitionToImage := .null, m_inTransition := false, m_currentEventIndex := 0,
    m_elapsedInEvent := 0, painted := [] }

/-- A window that holds two decoded crossfade images and has an empty cache;
its schedule is a 20 second crossfade from `A` to `B`, anchored at second 0. -/
def fadingWindow : WallpaperWindow :=
  { m_startTime := some 0, m_events := [.Transition ⟨20, "A", "B"⟩],
    cache := ImageCache.empty, m_currentStaticImage := .loaded 4 3 7,
    m_transitionFromImage := .loaded 4 3 8, m_transitionToImage := .loaded 4 3 9,
    m_inTransition := true, m_currentEventIndex := 0, m_elapsedInEvent := 0, painted := [] }

/-- A world at second 5 in which no file decodes; the window is exposed. -/
def brokenWorld : World :=
  { currentDateTime := 5, decode := decodeNothing, isExposed := true,
    geometry := ⟨0, 0, 1920, 1080⟩ }

/-- A window with an empty schedule. -/
def emptyWindow : WallpaperWindow :=
  { showingWindow with m_events := [] }

/-- A window whose only event has duration 0. -/
def zeroWindow : WallpaperWindow :=
  { showingWindow with m_events := [.Static ⟨0, "A"⟩] }

/-- The history that loads the three keys `a`, `b`, `c` in that order. -/
def threeCalls : List (String × QImage) :=
  [("a", .loaded 4 3 1), ("b", .loaded 4 3 2), ("c", .loaded 4 3 3)]

/-- Every image stored in the hash is an image the decoder returned for its
key, and not the null image. -/
def ImageCache.AllDecoded (c : ImageCache) : Prop :=
  ∀ e ∈ c.m_imageCache.entries, e.2.isNull = false ∧ e ∈ c.decoded

/-- Whether an entry of a schedule is a `static` entry. -/
def Event.isStatic : Event → Bool
  | .Static _ => true
  | .Transition _ => false

/-- A sorted list of `n` distinct image paths `A`, `B`, `C`, ... -/
def manyImages (n : Nat) : List String :=
  (List.range n).map (fun i => String.singleton (Char.ofNat (65 + i)))

/-- A timeline of positive durations whose sum does not fit the `int` type. -/
def wrappingTimeline : List Event :=
  [.Static ⟨5, "A"⟩, .Static ⟨2147483647, "B"⟩, .Static ⟨2147483647, "C"⟩, .Static ⟨20, "D"⟩]

/-- A decoder for which every path decodes. -/
def decodeAll : String → QImage := fun _ => QImage.loaded 4 3 1

/-- A world at second 5 in which every file decodes; the window is exposed. -/
def workingWorld : World :=
  { currentDateTime := 5, decode := decodeAll, isExposed := true,
    geometry := ⟨0, 0, 1920, 1080⟩ }

/-- The crossfade window with the cache that loaded `a`, `b`, `c`. -/
def warmWindow : WallpaperWindow :=
  { fadingWindow with cache := cacheImages ImageCache.empty threeCalls }

/-- A load environment: every start time is taken as second 0 of the time
line, and an unset duration reads as 0. -/
def plainEnv : LoadEnv := ⟨fun _ => some 0, 0⟩

/-- The schedule document that holds the start time 2001-01-01 00:00:00 and no
event element. -/
def emptyScheduleDoc : ScheduleDoc := ⟨"2001", "1", "1", "0", "0", "0", []⟩

/-- A schedule document whose `static` element has the duration text `abc`. -/
def badDurationDoc : ScheduleDoc :=
  ⟨"2001", "1", "1", "0", "0", "0", [.static "abc" "A", .transition "20" "A" "B"]⟩

/-! ## Scheduler lemmas -/

theorem wrap32_of_inRange (x : Int) (h1 : -2147483648 ≤ x) (h2 : x < 2147483648) :
    wrap32 x = x := by
  unfold wrap32
  omega

theorem durationSum_nonneg (events : List Event) (hpos : ∀ e ∈ events, 0 < e.duration) :
    0 ≤ durationSum events := by
  induction events with
  | nil => simp [durationSum]
  | cons e rest ih =>
    have h1 := hpos e (List.mem_cons_self _ _)
    have h2 := ih (fun x hx => hpos x (List.mem_cons_of_mem _ hx))
    simp only [durationSum, List.map_cons, List.sum_cons] at *
    omega

theorem foldl_wrap32_eq (events : List Event) (acc : Int)
    (hpos : ∀ e ∈ events, 0 < e.duration) (hacc : 0 ≤ acc)
    (hsum : acc + durationSum events < 2147483648) :
    events.foldl (fun total e => wrap32 (total + e.duration)) acc = acc + durationSum events := by
  induction events generalizing acc with
  | nil => simp [durationSum]
  | cons e rest ih =>
    have h1 := hpos e (List.mem_cons_self _ _)
    have hrest : ∀ x ∈ rest, 0 < x.duration := fun x hx => hpos x (List.mem_cons_of_mem _ hx)
    have h2 := durationSum_nonneg rest hrest
    have hs : durationSum (e :: rest) = e.duration + durationSum rest := by
      simp [durationSum]
    rw [hs] at hsum
    have hw : wrap32 (acc + e.duration) = acc + e.duration :=
      wrap32_of_inRange _ (by omega) (by omega)
    rw [List.foldl_cons, hw, ih (acc + e.duration) hrest (by omega) (by omega), hs]
    omega

theorem totalDuration_eq_durationSum (events : List Event)
    (hpos : ∀ e ∈ events, 0 < e.duration) (hsum : durationSum events < 2147483648) :
    totalDuration events = durationSum events := by
  unfold totalDuration
  rw [foldl_wrap32_eq events 0 hpos (le_refl _) (by omega)]
  omega

theorem scanEvents_spec (loopSec : Int) (events : List Event) (acc : Int) (idx : Nat)
    (hpos : ∀ e ∈ events, 0 < e.duration) (hacc : 0 ≤ acc)
    (hsum : acc + durationSum events < 2147483648)
    (hlo : acc ≤ loopSec) (hhi : loopSec < acc + durationSum events) :
    ∃ j, ∃ h : j < events.length,
      scanEvents loopSec events acc idx = (idx + j, acc + durationSum (events.take j)) ∧
      acc + durationSum (events.take j) ≤ loopSec ∧
      loopSec < acc + durationSum (events.take j) + (events[j]).duration := by
  induction events generalizing acc idx with
  | nil => simp [durationSum] at hhi; omega
  | cons e rest ih =>
    have h1 := hpos e (List.mem_cons_self _ _)
    have hrest : ∀ x ∈ rest, 0 < x.duration := fun x hx => hpos x (List.mem_cons_of_mem _ hx)
    have h2 := durationSum_nonneg rest hrest
    have hs : durationSum (e :: rest) = e.duration + durationSum rest := by
      simp [durationSum]
    rw [hs] at hsum hhi
    have hw : wrap32 (acc + e.duration) = acc + e.duration :=
      wrap32_of_inRange _ (by omega) (by omega)
    by_cases hlt : loopSec < acc + e.duration
    · refine ⟨0, by simp, ?_, ?_, ?_⟩
      · simp [scanEvents, hw, hlt, durationSum]
      · simp [durationSum]; exact hlo
      · simp [durationSum]; exact hlt
    · obtain ⟨j, hj, hscan, hlo2, hhi2⟩ :=
        ih (acc + e.duration) (idx + 1) hrest (by omega) (by omega) (by omega) (by omega)
      have ht : durationSum ((e :: rest).take (j + 1)) = e.duration + durationSum (rest.take j) := by
        simp [durationSum]
      refine ⟨j + 1, by simp; omega, ?_, ?_, ?_⟩
      · simp only [scanEvents, hw, hlt, if_false, hscan, ht]
        congr 1 <;> omega
      · rw [ht]; omega
      · rw [ht]; simp only [List.getElem_cons_succ]; omega

/-! ## Hash lemmas -/

theorem QHash.contains_iff (m : QHash) (k : String) : m.contains k = true ↔ k ∈ m.keys := by
  simp [QHash.contains]

theorem QHash.contains_eq_false_iff (m : QHash) (k : String) :
    m.contains k = false ↔ k ∉ m.keys := by
  simp [QHash.contains]

theorem QHash.keys_insert_of_not_mem (m : QHash) (k : String) (v : QImage) (h : k ∉ m.keys) :
    (m.insert k v).keys = m.keys ++ [k] := by
  have hc : m.contains k = false := (QHash.contains_eq_false_iff m k).2 h
  simp [QHash.insert, hc, QHash.keys]

theorem QHash.keys_remove (m : QHash) (k : String) :
    (m.remove k).keys = m.keys.filter (fun x => decide (x ≠ k)) := by
  simp only [QHash.remove, QHash.keys, List.filter_map]
  rfl

theorem QHash.value_remove_of_ne (m : QHash) (k k2 : String) (h : k2 ≠ k) :
    (m.remove k).value k2 = m.value k2 := by
  have hfun : (fun a : String × QImage =>
        decide (decide (a.1 ≠ k) = true ∧ decide (a.1 = k2) = true))
      = (fun a : String × QImage => decide (a.1 = k2)) := by
    funext a
    by_cases h2 : a.1 = k2
    · have : a.1 ≠ k := by rw [h2]; exact h
      simp [h2, h]
    · simp [h2]
  simp only [QHash.remove, QHash.value, List.find?_filter, hfun]

theorem QHash.value_insert_self (m : QHash) (k : String) (v : QImage) (h : k ∉ m.keys) :
    (m.insert k v).value k = v := by
  have hc : m.contains k = false := (QHash.contains_eq_false_iff m k).2 h
  obtain ⟨entries⟩ := m
  simp only [QHash.insert, hc, QHash.value]
  simp only [QHash.keys, List.mem_map, not_exists, not_and] at h
  have : List.find? (fun e => decide (e.1 = k)) entries = none := by
    simp only [List.find?_eq_none]
    intro e he
    simpa using h e he
  simp [List.find?_append, this]

theorem QHash.value_insert_of_ne (m : QHash) (k k2 : String) (v : QImage) (h : k ∉ m.keys)
    (h2 : k2 ≠ k) : (m.insert k v).value k2 = m.value k2 := by
  have hc : m.contains k = false := (QHash.contains_eq_false_iff m k).2 h
  obtain ⟨entries⟩ := m
  simp only [QHash.insert, hc, QHash.value]
  have hk : ¬ k = k2 := fun h3 => h2 h3.symm
  cases hf : List.find? (fun e => decide (e.1 = k2)) entries with
  | none => simp [List.find?_append, hf, hk]
  | some e => simp [List.find?_append, hf]

/-! ## Eviction and coherence of the cache -/

theorem evict_length_le (order : List String) (cache : QHash) :
    (evict order cache).1.length ≤ m_cacheLimit := by
  induction order generalizing cache with
  | nil => simp [evict]
  | cons a rest ih =>
    by_cases h : (a :: rest).length > m_cacheLimit
    · simp only [evict, h, if_true]; exact ih _
    · simp only [evict, h, if_false]; omega

theorem evict_sublist (order : List String) (cache : QHash) :
    (evict order cache).1.Sublist order := by
  induction order generalizing cache with
  | nil => simp [evict]
  | cons a rest ih =>
    by_cases h : (a :: rest).length > m_cacheLimit
    · simp only [evict, h, if_true]; exact (ih _).trans (List.sublist_cons_self a rest)
    · simp only [evict, h, if_false]; exact List.Sublist.refl _

theorem evict_coherent (order : List String) (cache : QHash)
    (h1 : order.Nodup) (h2 : cache.keys.Nodup) (h3 : ∀ k, k ∈ order ↔ k ∈ cache.keys) :
    (evict order cache).1.Nodup ∧ (evict order cache).2.keys.Nodup ∧
      ∀ k, k ∈ (evict order cache).1 ↔ k ∈ (evict order cache).2.keys := by
  induction order generalizing cache with
  | nil => exact ⟨h1, h2, h3⟩
  | cons a rest ih =>
    by_cases h : (a :: rest).length > m_cacheLimit
    · simp only [evict, h, if_true]
      have ha : a ∉ rest := (List.nodup_cons.1 h1).1
      apply ih _ (List.nodup_cons.1 h1).2
      · rw [QHash.keys_remove]; exact h2.filter _
      · intro k
        rw [QHash.keys_remove, List.mem_filter, ← h3 k]
        constructor
        · intro hk
          have hne : k ≠ a := fun hka => ha (hka ▸ hk)
          exact ⟨List.mem_cons_of_mem _ hk, by simpa using hne⟩
        · rintro ⟨hk, hne⟩
          have hne2 : k ≠ a := by simpa using hne
          rcases List.mem_cons.1 hk with hka | hk2
          · exact absurd hka hne2
          · exact hk2
    · simp only [evict, h, if_false]
      exact ⟨h1, h2, h3⟩

theorem Coherent.size_eq (c : ImageCache) (h : c.Coherent) :
    c.m_imageCache.size = c.m_cacheOrder.length := by
  obtain ⟨h1, h2, h3⟩ := h
  have hp : c.m_cacheOrder.Perm c.m_imageCache.keys := (List.perm_ext_iff_of_nodup h1 h2).2 h3
  have := hp.length_eq
  simp only [QHash.size]
  simp only [QHash.keys, List.length_map] at this
  omega

theorem coherent_empty : ImageCache.empty.Coherent := by
  simp [ImageCache.Coherent, ImageCache.empty, QHash.keys]

theorem mem_removeAll (l : List String) (p k : String) :
    k ∈ removeAll l p ↔ k ∈ l ∧ k ≠ p := by
  simp [removeAll]

theorem cacheImage_hit (c : ImageCache) (path : String) (img : QImage)
    (h : c.m_imageCache.contains path = true) :
    cacheImage c path img =
      { c with m_cacheOrder := removeAll c.m_cacheOrder path ++ [path] } := by
  simp [cacheImage, h]

theorem cacheImage_miss_fail (c : ImageCache) (path : String)
    (h : c.m_imageCache.contains path = false) :
    cacheImage c path QImage.null = { c with decoded := c.decoded ++ [(path, QImage.null)] } := by
  simp [cacheImage, h, QImage.isNull]

theorem cacheImage_miss_ok (c : ImageCache) (path : String) (img : QImage)
    (h : c.m_imageCache.contains path = false) (hi : img.isNull = false) :
    cacheImage c path img =
      { m_imageCache := (evict (c.m_cacheOrder ++ [path]) (c.m_imageCache.insert path img)).2,
        m_cacheOrder := (evict (c.m_cacheOrder ++ [path]) (c.m_imageCache.insert path img)).1,
        decoded := c.decoded ++ [(path, img)] } := by
  simp [cacheImage, h, hi]

theorem isNull_eq_true_iff (img : QImage) : img.isNull = true ↔ img = QImage.null := by
  cases img <;> simp [QImage.isNull]

theorem cacheImage_coherent (c : ImageCache) (path : String) (img : QImage) (h : c.Coherent) :
    (cacheImage c path img).Coherent := by
  obtain ⟨h1, h2, h3⟩ := h
  by_cases hc : c.m_imageCache.contains path = true
  · rw [cacheImage_hit c path img hc]
    have hp : path ∈ c.m_cacheOrder := (h3 path).2 ((QHash.contains_iff _ _).1 hc)
    refine ⟨?_, h2, ?_⟩
    · refine List.Nodup.append (h1.filter _) (List.nodup_singleton _) ?_
      simp [List.disjoint_singleton, removeAll]
    · intro k
      simp only [List.mem_append, List.mem_singleton, ← h3 k]
      rw [mem_removeAll]
      constructor
      · rintro (⟨hk, _⟩ | hk)
        · exact hk
        · exact hk ▸ hp
      · intro hk
        by_cases hkp : k = path
        · exact Or.inr hkp
        · exact Or.inl ⟨hk, hkp⟩
  · have hc2 : c.m_imageCache.contains path = false := by simpa using hc
    have hnk : path ∉ c.m_imageCache.keys := (QHash.contains_eq_false_iff _ _).1 hc2
    by_cases hi : img.isNull = true
    · rw [(isNull_eq_true_iff img).1 hi, cacheImage_miss_fail c path hc2]
      exact ⟨h1, h2, h3⟩
    · have hi2 : img.isNull = false := by simpa using hi
      rw [cacheImage_miss_ok c path img hc2 hi2]
      have hno : path ∉ c.m_cacheOrder := fun hx => hnk ((h3 path).1 hx)
      apply evict_coherent
      · exact List.Nodup.append h1 (List.nodup_singleton _) (by simpa [List.disjoint_singleton] using hno)
      · rw [QHash.keys_insert_of_not_mem _ _ _ hnk]
        exact List.Nodup.append h2 (List.nodup_singleton _) (by simpa [List.disjoint_singleton] using hnk)
      · intro k
        rw [QHash.keys_insert_of_not_mem _ _ _ hnk]
        simp only [List.mem_append, h3 k]

theorem cacheImage_order_length (c : ImageCache) (path : String) (img : QImage)
    (h : c.Coherent) (hl : c.m_cacheOrder.length ≤ m_cacheLimit) :
    (cacheImage c path img).m_cacheOrder.length ≤ m_cacheLimit := by
  by_cases hc : c.m_imageCache.contains path = true
  · have hco := cacheImage_coherent c path img h
    have hs := Coherent.size_eq _ hco
    have hs0 := Coherent.size_eq _ h
    rw [cacheImage_hit c path img hc] at hs
    rw [cacheImage_hit c path img hc]
    have hs2 : c.m_imageCache.size = (removeAll c.m_cacheOrder path ++ [path]).length := hs
    show (removeAll c.m_cacheOrder path ++ [path]).length ≤ m_cacheLimit
    omega
  · have hc2 : c.m_imageCache.contains path = false := by simpa using hc
    by_cases hi : img.isNull = true
    · rw [(isNull_eq_true_iff img).1 hi, cacheImage_miss_fail c path hc2]
      exact hl
    · have hi2 : img.isNull = false := by simpa using hi
      rw [cacheImage_miss_ok c path img hc2 hi2]
      exact evict_length_le _ _

theorem cacheImages_snoc (c : ImageCache) (calls : List (String × QImage)) (x : String × QImage) :
    cacheImages c (calls ++ [x]) = cacheImage (cacheImages c calls) x.1 x.2 := by
  simp [cacheImages, List.foldl_append]

theorem cacheImages_coherent (c : ImageCache) (calls : List (String × QImage))
    (h : c.Coherent) (hl : c.m_cacheOrder.length ≤ m_cacheLimit) :
    (cacheImages c calls).Coherent ∧ (cacheImages c calls).m_cacheOrder.length ≤ m_cacheLimit := by
  induction calls generalizing c with
  | nil => exact ⟨h, hl⟩
  | cons x rest ih =>
    simp only [cacheImages, List.foldl_cons]
    exact ih _ (cacheImage_coherent c x.1 x.2 h) (cacheImage_order_length c x.1 x.2 h hl)

/-! ## Recency order -/

theorem callsSinceLastUse_snoc (k : String) (calls : List (String × QImage)) (x : String × QImage) :
    callsSinceLastUse k (calls ++ [x]) =
      if x.1 = k then 0 else callsSinceLastUse k calls + 1 := by
  simp only [callsSinceLastUse, List.map_append, List.map_cons, List.map_nil,
    List.reverse_append, List.reverse_cons, List.reverse_nil, List.nil_append,
    List.singleton_append, List.indexOf_cons]
  by_cases h : x.1 = k
  · simp [h]
  · have hb : (x.1 == k) = false := by simpa using h
    simp [h, hb]

theorem orderedByUse_snoc (order : List String) (calls : List (String × QImage))
    (x : String × QImage)
    (h : order.Pairwise (fun a b => callsSinceLastUse b calls < callsSinceLastUse a calls))
    (hx : x.1 ∉ order) :
    (order ++ [x.1]).Pairwise
      (fun a b => callsSinceLastUse b (calls ++ [x]) < callsSinceLastUse a (calls ++ [x])) := by
  rw [List.pairwise_append]
  refine ⟨?_, List.pairwise_singleton _ _, ?_⟩
  · refine h.imp_of_mem ?_
    intro a b ha hb hab
    have hane : ¬ x.1 = a := fun e => hx (e ▸ ha)
    have hbne : ¬ x.1 = b := fun e => hx (e ▸ hb)
    simp only [callsSinceLastUse_snoc, hane, hbne, if_false]
    omega
  · intro a ha b hb
    have hb2 : b = x.1 := by simpa using hb
    have hane : ¬ x.1 = a := fun e => hx (e ▸ ha)
    subst hb2
    simp only [callsSinceLastUse_snoc, hane, if_false, if_true]
    omega

theorem cacheImage_orderedByUse (c : ImageCache) (calls : List (String × QImage))
    (x : String × QImage) (hco : c.Coherent) (h : c.OrderedByUse calls) :
    (cacheImage c x.1 x.2).OrderedByUse (calls ++ [x]) := by
  obtain ⟨h1, h2, h3⟩ := hco
  unfold ImageCache.OrderedByUse at *
  by_cases hc : c.m_imageCache.contains x.1 = true
  · rw [cacheImage_hit c x.1 x.2 hc]
    apply orderedByUse_snoc
    · exact h.sublist (List.filter_sublist _)
    · simp [removeAll]
  · have hc2 : c.m_imageCache.contains x.1 = false := by simpa using hc
    have hnk : x.1 ∉ c.m_imageCache.keys := (QHash.contains_eq_false_iff _ _).1 hc2
    have hno : x.1 ∉ c.m_cacheOrder := fun hx => hnk ((h3 x.1).1 hx)
    have hall := orderedByUse_snoc c.m_cacheOrder calls x h hno
    by_cases hi : x.2.isNull = true
    · rw [(isNull_eq_true_iff x.2).1 hi, cacheImage_miss_fail c x.1 hc2]
      rw [← (isNull_eq_true_iff x.2).1 hi]
      exact hall.sublist (List.sublist_append_left _ _)
    · have hi2 : x.2.isNull = false := by simpa using hi
      rw [cacheImage_miss_ok c x.1 x.2 hc2 hi2]
      exact hall.sublist (evict_sublist _ _)

theorem cacheImages_orderedByUse (calls : List (String × QImage)) :
    (cacheImages ImageCache.empty calls).OrderedByUse calls := by
  induction calls using List.reverseRecOn with
  | nil => simp [ImageCache.OrderedByUse, cacheImages, ImageCache.empty]
  | append_singleton rest x ih =>
    rw [cacheImages_snoc]
    exact cacheImage_orderedByUse _ rest x
      (cacheImages_coherent ImageCache.empty rest coherent_empty (by simp [ImageCache.empty])).1 ih

theorem evict_four (a b d e : String) (cache : QHash) :
    evict [a, b, d, e] cache = ([b, d, e], cache.remove a) := by
  simp [evict, m_cacheLimit]

/-! ## Runs on one key -/

theorem evict_cons (a : String) (rest : List String) (cache : QHash) :
    evict (a :: rest) cache =
      if (a :: rest).length > m_cacheLimit then evict rest (cache.remove a)
      else (a :: rest, cache) := rfl

theorem mem_evict_last (l : List String) (path : String) (cache : QHash) :
    path ∈ (evict (l ++ [path]) cache).1 := by
  induction l generalizing cache with
  | nil => simp [evict, m_cacheLimit]
  | cons a rest ih =>
    rw [List.cons_append, evict_cons]
    split
    · exact ih _
    · simp

theorem evict_keys_subset (l : List String) (cache : QHash) (k : String)
    (h : k ∈ (evict l cache).2.keys) : k ∈ cache.keys := by
  induction l generalizing cache with
  | nil => exact h
  | cons a rest ih =>
    by_cases hl : (a :: rest).length > m_cacheLimit
    · simp only [evict, hl, if_true] at h
      have := ih _ h
      rw [QHash.keys_remove] at this
      exact (List.mem_filter.1 this).1
    · simp only [evict, hl, if_false] at h
      exact h

theorem cacheImage_contains_after_ok (c : ImageCache) (path : String) (img : QImage)
    (hco : c.Coherent) (hmiss : c.m_imageCache.contains path = false)
    (hok : img.isNull = false) :
    (cacheImage c path img).m_imageCache.contains path = true := by
  have hco2 := cacheImage_coherent c path img hco
  rw [QHash.contains_iff, ← hco2.2.2 path, cacheImage_miss_ok c path img hmiss hok]
  exact mem_evict_last _ _ _

theorem runOnKey_hit (c : ImageCache) (path : String) (imgs : List QImage)
    (h : c.m_imageCache.contains path = true) :
    (cacheImages c (runOnKey path imgs)).decoded = c.decoded ∧
    (cacheImages c (runOnKey path imgs)).m_imageCache = c.m_imageCache := by
  induction imgs generalizing c with
  | nil => exact ⟨rfl, rfl⟩
  | cons img rest ih =>
    simp only [runOnKey, List.map_cons, cacheImages, List.foldl_cons]
    have hstep := cacheImage_hit c path img h
    have h2 : (cacheImage c path img).m_imageCache.contains path = true := by
      rw [hstep]; exact h
    have := ih (cacheImage c path img) h2
    simp only [runOnKey, cacheImages] at this
    rw [this.1, this.2, hstep]
    exact ⟨rfl, rfl⟩

theorem successfulDecodes_eq_of_decoded (c d : ImageCache) (path : String)
    (h : d.decoded = c.decoded) : successfulDecodes d path = successfulDecodes c path := by
  simp [successfulDecodes, h]

theorem runOnKey_successfulDecodes (c : ImageCache) (path : String) (imgs : List QImage)
    (hco : c.Coherent) :
    successfulDecodes (cacheImages c (runOnKey path imgs)) path ≤ successfulDecodes c path + 1 := by
  induction imgs generalizing c with
  | nil => simp [runOnKey, cacheImages]
  | cons img rest ih =>
    by_cases hc : c.m_imageCache.contains path = true
    · have := (runOnKey_hit c path (img :: rest) hc).1
      rw [successfulDecodes_eq_of_decoded _ _ path this]
      omega
    · have hc2 : c.m_imageCache.contains path = false := by simpa using hc
      have hcons : cacheImages c (runOnKey path (img :: rest))
          = cacheImages (cacheImage c path img) (runOnKey path rest) := by
        simp [runOnKey, cacheImages]
      rw [hcons]
      by_cases hi : img.isNull = true
      · have hnull := (isNull_eq_true_iff img).1 hi
        have hstep := cacheImage_miss_fail c path hc2
        rw [← hnull] at hstep
        have hsd : successfulDecodes (cacheImage c path img) path = successfulDecodes c path := by
          rw [hstep]
          simp [successfulDecodes, List.filter_append, hi]
        have := ih (cacheImage c path img) (cacheImage_coherent c path img hco)
        omega
      · have hi2 : img.isNull = false := by simpa using hi
        have hin := cacheImage_contains_after_ok c path img hco hc2 hi2
        have hrest := (runOnKey_hit (cacheImage c path img) path rest hin).1
        rw [successfulDecodes_eq_of_decoded _ _ path hrest, cacheImage_miss_ok c path img hc2 hi2]
        simp [successfulDecodes, List.filter_append, hi2]

/-! ## The tick -/

theorem QHash.value_of_not_mem (m : QHash) (k : String) (h : k ∉ m.keys) :
    m.value k = QImage.null := by
  have : List.find? (fun e : String × QImage => decide (e.1 = k)) m.entries = none := by
    simp only [List.find?_eq_none]
    intro e he
    simp only [QHash.keys, List.mem_map, not_exists, not_and] at h
    simpa using h e he
  simp [QHash.value, this]

theorem cacheImage_keys_subset (c : ImageCache) (path : String) (img : QImage) (k : String)
    (h : k ∈ (cacheImage c path img).m_imageCache.keys) :
    k ∈ c.m_imageCache.keys ∨ (k = path ∧ img.isNull = false) := by
  by_cases hc : c.m_imageCache.contains path = true
  · rw [cacheImage_hit c path img hc] at h
    exact Or.inl h
  · have hc2 : c.m_imageCache.contains path = false := by simpa using hc
    have hnk : path ∉ c.m_imageCache.keys := (QHash.contains_eq_false_iff _ _).1 hc2
    by_cases hi : img.isNull = true
    · rw [(isNull_eq_true_iff img).1 hi, cacheImage_miss_fail c path hc2] at h
      exact Or.inl h
    · have hi2 : img.isNull = false := by simpa using hi
      rw [cacheImage_miss_ok c path img hc2 hi2] at h
      have h2 := evict_keys_subset _ _ _ h
      rw [QHash.keys_insert_of_not_mem _ _ _ hnk] at h2
      rcases List.mem_append.1 h2 with h3 | h3
      · exact Or.inl h3
      · exact Or.inr ⟨by simpa using h3, hi2⟩

theorem updateWallpaper_of_schedule (w : World) (s : WallpaperWindow) (index : Nat) (elapsed : Int)
    (event : Event)
    (hs : schedule s.m_events (secsTo s.m_startTime (some w.currentDateTime)) = some (index, elapsed))
    (he : s.m_events[index]? = some event) :
    updateWallpaper w s =
      if w.isExposed then
        { loadEventImages w { s with m_currentEventIndex := index, m_elapsedInEvent := elapsed } event
          with painted :=
            (loadEventImages w { s with m_currentEventIndex := index, m_elapsedInEvent := elapsed }
              event).painted ++
            [renderWallpaper
              (loadEventImages w { s with m_currentEventIndex := index, m_elapsedInEvent := elapsed }
                event) w.geometry] }
      else loadEventImages w { s with m_currentEventIndex := index, m_elapsedInEvent := elapsed } event := by
  simp only [updateWallpaper, hs, he]

theorem cacheImage_fail_unchanged (c : ImageCache) (path : String) (img : QImage)
    (hmiss : c.m_imageCache.contains path = false) (hfail : img.isNull = true) :
    (cacheImage c path img).m_imageCache = c.m_imageCache ∧
    (cacheImage c path img).m_cacheOrder = c.m_cacheOrder := by
  rw [(isNull_eq_true_iff img).1 hfail, cacheImage_miss_fail c path hmiss]
  exact ⟨rfl, rfl⟩

theorem updateWallpaper_stores (w : World) (s : WallpaperWindow) (index : Nat) (elapsed : Int)
    (event : Event)
    (hs : schedule s.m_events (secsTo s.m_startTime (some w.currentDateTime)) = some (index, elapsed))
    (he : s.m_events[index]? = some event) :
    (updateWallpaper w s).m_currentEventIndex = index ∧
    (updateWallpaper w s).m_elapsedInEvent = elapsed ∧
    (updateWallpaper w s).m_events = s.m_events ∧
    (updateWallpaper w s).m_inTransition
      = (match event with
         | .Static _ => false
         | .Transition _ => true) := by
  rw [updateWallpaper_of_schedule w s index elapsed event hs he]
  cases event <;> split <;> simp [loadEventImages]

/-! ## Geometry lemmas -/

/-- C1 (amended): for every timeline with at least one event, all durations
positive and summing to less than 2^31, and for every anchor and every current
time `now` that is not earlier than the anchor, the scheduler step yields a
result, `updateWallpaper` stores it, the stored event index is smaller than the
number of events, and the stored elapsed time is at least 0 and smaller than the
duration of the event at that index. -/
theorem resolve_in_range (events : List Event) (anchor now : Int) (w : World)
    (s : WallpaperWindow)
    (hne : events ≠ []) (hpos : ∀ e ∈ events, 0 < e.duration)
    (hsum : durationSum events < 2147483648) (hnow : anchor ≤ now) :
    ∃ i el, resolve events anchor now = some (i, el) ∧
      (updateWallpaper { w with currentDateTime := now }
        { s with m_events := events, m_startTime := some anchor }).m_currentEventIndex = i ∧
      (updateWallpaper { w with currentDateTime := now }
        { s with m_events := events, m_startTime := some anchor }).m_elapsedInEvent = el ∧
      ∃ h : i < events.length, 0 ≤ el ∧ el < (events[i]).duration := by
  have htot := totalDuration_eq_durationSum events hpos hsum
  have hT : 0 < durationSum events := by
    cases events with
    | nil => exact absurd rfl hne
    | cons e rest =>
      have h1 := hpos e (List.mem_cons_self _ _)
      have h2 := durationSum_nonneg rest (fun x hx => hpos x (List.mem_cons_of_mem _ hx))
      have hs : durationSum (e :: rest) = e.duration + durationSum rest := by simp [durationSum]
      omega
  have hs0 : 0 ≤ now - anchor := by omega
  have hlo : 0 ≤ Int.tmod (now - anchor) (durationSum events) := Int.tmod_nonneg _ hs0
  have hhi : Int.tmod (now - anchor) (durationSum events) < durationSum events :=
    Int.tmod_lt_of_pos _ hT
  obtain ⟨j, hj, hscan, hlo2, hhi2⟩ :=
    scanEvents_spec (Int.tmod (now - anchor) (durationSum events)) events 0 0 hpos (le_refl _)
      (by omega) (by omega) (by omega)
  have hres : resolve events anchor now
      = some (j, Int.tmod (now - anchor) (durationSum events) - (0 + durationSum (events.take j))) := by
    have hemp : events.isEmpty = false := by
      cases events with
      | nil => exact absurd rfl hne
      | cons e rest => rfl
    have hT0 : ¬ durationSum events = 0 := by omega
    have hjl : ¬ events.length ≤ j := by omega
    simp [resolve, schedule, secsTo, hemp, htot, hT0, hscan, hjl]
  have hget : events[j]? = some (events[j]) := List.getElem?_eq_getElem hj
  have hst := updateWallpaper_stores { w with currentDateTime := now }
    { s with m_events := events, m_startTime := some anchor } j _ (events[j]) hres hget
  refine ⟨j, _, hres, hst.1, hst.2.1, hj, ?_, ?_⟩
  · omega
  · omega

/-- Witness of C1 (amended): the example timeline anchored at second 100,
resolved at second 115. -/
theorem resolve_in_range_witness :
    ∃ i el, resolve exampleTimeline 100 115 = some (i, el) ∧
      (updateWallpaper { brokenWorld with currentDateTime := 115 }
        { showingWindow with m_events := exampleTimeline,
                             m_startTime := some 100 }).m_currentEventIndex = i ∧
      (updateWallpaper { brokenWorld with currentDateTime := 115 }
        { showingWindow with m_events := exampleTimeline,
                             m_startTime := some 100 }).m_elapsedInEvent = el ∧
      ∃ h : i < exampleTimeline.length, 0 ≤ el ∧ el < (exampleTimeline[i]).duration :=
  resolve_in_range exampleTimeline 100 115 brokenWorld showingWindow
    (by decide) (by decide) (by decide) (by decide)

/-- Counterexample to C1 as stated. First, with the anchor 5 seconds after
`now`, the one-event timeline of duration 10 resolves to the elapsed time -5
(the remainder of `%` keeps the sign of the dividend), which is below 0.
Second, for two events of duration 2^30 each the `int` sums wrap around and
the stored elapsed time 3221225477 is not below the duration of the selected
event. -/
theorem resolve_out_of_range :
    (resolve [.Static ⟨10, "A"⟩] 5 0 = some (0, -5) ∧ ¬ (0 ≤ (-5 : Int))) ∧
    (resolve [.Static ⟨1073741824, "A"⟩, .Static ⟨1073741824, "B"⟩] 0 1073741829
        = some (0, 3221225477) ∧
      ¬ ((3221225477 : Int) < (Event.Static ⟨1073741824, "A"⟩).duration)) := by
  decide

/-- C2: for every timeline whose `totalDuration` is positive, every anchor and
every integer `k` (negative included), the scheduler step at
`now = anchor + k * totalDuration` yields a result and it equals the result at
`now = anchor`. -/
theorem resolve_cyclic (events : List Event) (anchor k : Int)
    (hT : 0 < totalDuration events) :
    resolve events anchor (anchor + k * totalDuration events) = resolve events anchor anchor ∧
    (resolve events anchor anchor).isSome = true := by
  have hemp : events.isEmpty = false := by
    cases events with
    | nil => simp [totalDuration] at hT
    | cons e rest => rfl
  have hT0 : ¬ totalDuration events = 0 := by omega
  constructor
  · simp [resolve, schedule, secsTo, hemp, hT0, Int.mul_tmod_left]
  · simp [resolve, schedule, secsTo, hemp, hT0]

/-- Witness of C2: the example timeline, seven cycles before the anchor. -/
theorem resolve_cyclic_witness :
    resolve exampleTimeline 100 (100 + (-7) * totalDuration exampleTimeline)
      = resolve exampleTimeline 100 100 ∧
    (resolve exampleTimeline 100 100).isSome = true :=
  resolve_cyclic exampleTimeline 100 (-7) (by decide)

/-- C3: for the timeline `[Static 10 A, Transition 20 A B]` and every anchor
`T0`, `totalDuration` is 30; the tick at `T0 + 5` selects event 0, the still
image `A`, with elapsed time 5; the tick at `T0 + 15` selects event 1, the
transition, with elapsed time 5, and the blend progress computed from the
stored state is 1/4; the tick at `T0 + 35` selects event 0 again with elapsed
time 5. -/
theorem example_timeline_end_to_end (T0 : Int) (w : World) (s : WallpaperWindow) :
    totalDuration exampleTimeline = 30 ∧
    exampleTimeline[0]? = some (.Static ⟨10, "A"⟩) ∧
    exampleTimeline[1]? = some (.Transition ⟨20, "A", "B"⟩) ∧
    resolve exampleTimeline T0 (T0 + 5) = some (0, 5) ∧
    resolve exampleTimeline T0 (T0 + 15) = some (1, 5) ∧
    resolve exampleTimeline T0 (T0 + 35) = some (0, 5) ∧
    progress 5 20 = 1 / 4 ∧
    ((updateWallpaper { w with currentDateTime := T0 + 5 }
        { s with m_events := exampleTimeline, m_startTime := some T0 }).m_currentEventIndex = 0 ∧
      (updateWallpaper { w with currentDateTime := T0 + 5 }
        { s with m_events := exampleTimeline, m_startTime := some T0 }).m_elapsedInEvent = 5 ∧
      (updateWallpaper { w with currentDateTime := T0 + 5 }
        { s with m_events := exampleTimeline, m_startTime := some T0 }).m_inTransition = false) ∧
    ((updateWallpaper { w with currentDateTime := T0 + 15 }
        { s with m_events := exampleTimeline, m_startTime := some T0 }).m_currentEventIndex = 1 ∧
      (updateWallpaper { w with currentDateTime := T0 + 15 }
        { s with m_events := exampleTimeline, m_startTime := some T0 }).m_elapsedInEvent = 5 ∧
      (updateWallpaper { w with currentDateTime := T0 + 15 }
        { s with m_events := exampleTimeline, m_startTime := some T0 }).m_inTransition = true ∧
      progress
        (updateWallpaper { w with currentDateTime := T0 + 15 }
          { s with m_events := exampleTimeline, m_startTime := some T0 }).m_elapsedInEvent
        (transitionDuration (updateWallpaper { w with currentDateTime := T0 + 15 }
          { s with m_events := exampleTimeline, m_startTime := some T0 })) = 1 / 4) ∧
    ((updateWallpaper { w with currentDateTime := T0 + 35 }
        { s with m_events := exampleTimeline, m_startTime := some T0 }).m_currentEventIndex = 0 ∧
      (updateWallpaper { w with currentDateTime := T0 + 35 }
        { s with m_events := exampleTimeline, m_startTime := some T0 }).m_elapsedInEvent = 5 ∧
      (updateWallpaper { w with currentDateTime := T0 + 35 }
        { s with m_events := exampleTimeline, m_startTime := some T0 }).m_inTransition = false) := by
  have h5 : T0 + 5 - T0 = 5 := by omega
  have h15 : T0 + 15 - T0 = 15 := by omega
  have h35 : T0 + 35 - T0 = 35 := by omega
  have r5 : resolve exampleTimeline T0 (T0 + 5) = some (0, 5) := by
    simp only [resolve, secsTo, h5]; decide
  have r15 : resolve exampleTimeline T0 (T0 + 15) = some (1, 5) := by
    simp only [resolve, secsTo, h15]; decide
  have r35 : resolve exampleTimeline T0 (T0 + 35) = some (0, 5) := by
    simp only [resolve, secsTo, h35]; decide
  have e0 : exampleTimeline[0]? = some (.Static ⟨10, "A"⟩) := by decide
  have e1 : exampleTimeline[1]? = some (.Transition ⟨20, "A", "B"⟩) := by decide
  have hp : progress 5 20 = 1 / 4 := by simp only [progress, qBound]; norm_num
  have s5 := updateWallpaper_stores { w with currentDateTime := T0 + 5 }
    { s with m_events := exampleTimeline, m_startTime := some T0 } 0 5 _ r5 e0
  have s15 := updateWallpaper_stores { w with currentDateTime := T0 + 15 }
    { s with m_events := exampleTimeline, m_startTime := some T0 } 1 5 _ r15 e1
  have s35 := updateWallpaper_stores { w with currentDateTime := T0 + 35 }
    { s with m_events := exampleTimeline, m_startTime := some T0 } 0 5 _ r35 e0
  refine ⟨by decide, e0, e1, r5, r15, r35, hp, ⟨s5.1, s5.2.1, s5.2.2.2⟩, ?_,
    ⟨s35.1, s35.2.1, s35.2.2.2⟩⟩
  refine ⟨s15.1, s15.2.1, s15.2.2.2, ?_⟩
  have htd : transitionDuration (updateWallpaper { w with currentDateTime := T0 + 15 }
      { s with m_events := exampleTimeline, m_startTime := some T0 }) = 20 := by
    simp only [transitionDuration, s15.1, s15.2.2.1]
    rfl
  rw [s15.2.1, htd, hp]

/-! ## Image cache properties -/

/-- C4: starting from the empty cache, after every sequence of `cacheImage`
calls (any keys, any decode results) the recency list `m_cacheOrder` and the
hash `m_imageCache` both hold at most `m_cacheLimit` = 3 entries. -/
theorem cache_size_le_limit (calls : List (String × QImage)) :
    m_cacheLimit = 3 ∧
    (cacheImages ImageCache.empty calls).m_cacheOrder.length ≤ 3 ∧
    (cacheImages ImageCache.empty calls).m_imageCache.size ≤ 3 := by
  have h := cacheImages_coherent ImageCache.empty calls coherent_empty (by simp [ImageCache.empty])
  have hs := Coherent.size_eq _ h.1
  have hl : (cacheImages ImageCache.empty calls).m_cacheOrder.length ≤ 3 := h.2
  exact ⟨rfl, hl, by omega⟩

/-- C5: in every cache state reached from the empty cache by a sequence `calls`
of `cacheImage` calls and holding 3 entries, a `cacheImage` call on a key `path`
that is not cached and decodes successfully evicts exactly one key `victim`:
`victim` was cached and every other cached key was referenced more recently
than it; afterwards the cached keys are `path` and the former keys other than
`victim`, every kept key has the image it had, `path` has the decoded image,
the cache still holds 3 entries, and `path` is last in the recency list, whose
other entries are the former ones without the first. -/
theorem cacheImage_evicts_lru (calls : List (String × QImage)) (path : String) (img : QImage)
    (hfull : (cacheImages ImageCache.empty calls).m_imageCache.size = 3)
    (hmiss : (cacheImages ImageCache.empty calls).m_imageCache.contains path = false)
    (hok : img.isNull = false) :
    ∃ victim,
      (cacheImages ImageCache.empty calls).m_imageCache.contains victim = true ∧
      (∀ k, (cacheImages ImageCache.empty calls).m_imageCache.contains k = true → k ≠ victim →
        callsSinceLastUse k calls < callsSinceLastUse victim calls) ∧
      (∀ k, (cacheImage (cacheImages ImageCache.empty calls) path img).m_imageCache.contains k = true
          ↔ (k = path ∨
             ((cacheImages ImageCache.empty calls).m_imageCache.contains k = true ∧ k ≠ victim))) ∧
      (cacheImage (cacheImages ImageCache.empty calls) path img).m_imageCache.contains victim = false ∧
      (∀ k, (cacheImages ImageCache.empty calls).m_imageCache.contains k = true → k ≠ victim →
        (cacheImage (cacheImages ImageCache.empty calls) path img).m_imageCache.value k
          = (cacheImages ImageCache.empty calls).m_imageCache.value k) ∧
      (cacheImage (cacheImages ImageCache.empty calls) path img).m_imageCache.value path = img ∧
      (cacheImage (cacheImages ImageCache.empty calls) path img).m_imageCache.size = 3 ∧
      (cacheImage (cacheImages ImageCache.empty calls) path img).m_cacheOrder
        = (cacheImages ImageCache.empty calls).m_cacheOrder.tail ++ [path] ∧
      callsSinceLastUse path (calls ++ [(path, img)]) = 0 := by
  have hinv := cacheImages_coherent ImageCache.empty calls coherent_empty (by simp [ImageCache.empty])
  have hord := cacheImages_orderedByUse calls
  generalize cacheImages ImageCache.empty calls = c at *
  obtain ⟨h1, h2, h3⟩ := hinv.1
  have hlen : c.m_cacheOrder.length = 3 := by
    have := Coherent.size_eq c hinv.1
    omega
  have hnk : path ∉ c.m_imageCache.keys := (QHash.contains_eq_false_iff _ _).1 hmiss
  have hno : path ∉ c.m_cacheOrder := fun hx => hnk ((h3 path).1 hx)
  have hco2 := cacheImage_coherent c path img hinv.1
  have hstep := cacheImage_miss_ok c path img hmiss hok
  obtain ⟨a, b, d, habc⟩ : ∃ a b d, c.m_cacheOrder = [a, b, d] := by
    match hm : c.m_cacheOrder, hlen with
    | [a, b, d], _ => exact ⟨a, b, d, rfl⟩
  have hev : evict (c.m_cacheOrder ++ [path]) (c.m_imageCache.insert path img)
      = ([b, d, path], (c.m_imageCache.insert path img).remove a) := by
    rw [habc]; exact evict_four a b d path _
  rw [hev] at hstep
  have hap : a ≠ path := by
    intro e
    apply hno
    rw [habc, ← e]
    simp
  have hkeys : ∀ k, k ∈ ((c.m_imageCache.insert path img).remove a).keys ↔
      (k = path ∨ (k ∈ c.m_imageCache.keys ∧ k ≠ a)) := by
    intro k
    rw [QHash.keys_remove, QHash.keys_insert_of_not_mem _ _ _ hnk]
    simp only [List.mem_filter, List.mem_append, List.mem_singleton, decide_eq_true_eq]
    constructor
    · rintro ⟨hk | hk, hne⟩
      · exact Or.inr ⟨hk, hne⟩
      · exact Or.inl hk
    · rintro (hk | ⟨hk, hne⟩)
      · exact ⟨Or.inr hk, by rw [hk]; exact fun e => hap e.symm⟩
      · exact ⟨Or.inl hk, hne⟩
  have hamem : a ∈ c.m_imageCache.keys := (h3 a).1 (by rw [habc]; simp)
  refine ⟨a, (QHash.contains_iff _ _).2 hamem, ?_, ?_, ?_, ?_, ?_, ?_, ?_, ?_⟩
  · intro k hk hne
    have hk2 : k ∈ c.m_cacheOrder := (h3 k).2 ((QHash.contains_iff _ _).1 hk)
    unfold ImageCache.OrderedByUse at hord
    rw [habc] at hord hk2
    have hrel := (List.pairwise_cons.1 hord).1
    have hk3 : k ∈ [b, d] := by
      rcases List.mem_cons.1 hk2 with e | e
      · exact absurd e hne
      · exact e
    exact hrel k hk3
  · intro k
    rw [hstep]
    simp only [QHash.contains_iff]
    exact hkeys k
  · rw [hstep]
    simp only [QHash.contains_eq_false_iff]
    intro hmem
    rcases (hkeys a).1 hmem with e | ⟨_, e⟩
    · exact hap e
    · exact e rfl
  · intro k hk hne
    rw [hstep]
    show ((c.m_imageCache.insert path img).remove a).value k = c.m_imageCache.value k
    have hkp : k ≠ path := by
      intro e
      rw [e] at hk
      rw [hmiss] at hk
      exact Bool.noConfusion hk
    rw [QHash.value_remove_of_ne _ _ _ hne, QHash.value_insert_of_ne _ _ _ _ hnk hkp]
  · rw [hstep]
    show ((c.m_imageCache.insert path img).remove a).value path = img
    rw [QHash.value_remove_of_ne _ _ _ (fun e => hap e.symm), QHash.value_insert_self _ _ _ hnk]
  · have hs := Coherent.size_eq _ hco2
    rw [hs, hstep]
    rfl
  · rw [hstep, habc]
    rfl
  · simp [callsSinceLastUse_snoc]

/-- Witness of C5: the cache that loaded `a`, `b`, `c` in this order receives
the new key `d`. -/
theorem cacheImage_evicts_lru_witness :
    ∃ victim,
      (cacheImages ImageCache.empty threeCalls).m_imageCache.contains victim = true ∧
      (∀ k, (cacheImages ImageCache.empty threeCalls).m_imageCache.contains k = true →
        k ≠ victim → callsSinceLastUse k threeCalls < callsSinceLastUse victim threeCalls) ∧
      (∀ k, (cacheImage (cacheImages ImageCache.empty threeCalls) "d"
            (.loaded 4 3 4)).m_imageCache.contains k = true
          ↔ (k = "d" ∨
             ((cacheImages ImageCache.empty threeCalls).m_imageCache.contains k = true ∧
               k ≠ victim))) ∧
      (cacheImage (cacheImages ImageCache.empty threeCalls) "d"
        (.loaded 4 3 4)).m_imageCache.contains victim = false ∧
      (∀ k, (cacheImages ImageCache.empty threeCalls).m_imageCache.contains k = true →
        k ≠ victim →
        (cacheImage (cacheImages ImageCache.empty threeCalls) "d"
          (.loaded 4 3 4)).m_imageCache.value k
          = (cacheImages ImageCache.empty threeCalls).m_imageCache.value k) ∧
      (cacheImage (cacheImages ImageCache.empty threeCalls) "d"
        (.loaded 4 3 4)).m_imageCache.value "d" = .loaded 4 3 4 ∧
      (cacheImage (cacheImages ImageCache.empty threeCalls) "d"
        (.loaded 4 3 4)).m_imageCache.size = 3 ∧
      (cacheImage (cacheImages ImageCache.empty threeCalls) "d" (.loaded 4 3 4)).m_cacheOrder
        = (cacheImages ImageCache.empty threeCalls).m_cacheOrder.tail ++ ["d"] ∧
      callsSinceLastUse "d" (threeCalls ++ [("d", .loaded 4 3 4)]) = 0 :=
  cacheImage_evicts_lru threeCalls "d" (.loaded 4 3 4) (by decide) (by decide) (by decide)

/-- C6 (amended): for every cache state and every key in the cache,
`cacheImage` on that key performs no decode, leaves the hash (its keys and
every stored image) unchanged, and only moves the key to the last position of
the recency list; hence a run of consecutive `cacheImage` calls on a key that
is cached performs no decode at all, and a run of consecutive calls on one key
from a state reachable from the empty cache adds at most one successful decode
of that key (a decode that fails is attempted again by the next call). -/
theorem cacheImage_hit_frame :
    (∀ (c : ImageCache) (path : String) (img : QImage),
      c.m_imageCache.contains path = true →
        (cacheImage c path img).decoded = c.decoded ∧
        (cacheImage c path img).m_imageCache = c.m_imageCache ∧
        (cacheImage c path img).m_cacheOrder = removeAll c.m_cacheOrder path ++ [path]) ∧
    (∀ (c : ImageCache) (path : String) (imgs : List QImage),
      c.m_imageCache.contains path = true →
        decodeCount (cacheImages c (runOnKey path imgs)) = decodeCount c) ∧
    (∀ (calls : List (String × QImage)) (path : String) (imgs : List QImage),
      successfulDecodes (cacheImages (cacheImages ImageCache.empty calls) (runOnKey path imgs)) path
        ≤ successfulDecodes (cacheImages ImageCache.empty calls) path + 1) := by
  refine ⟨?_, ?_, ?_⟩
  · intro c path img h
    rw [cacheImage_hit c path img h]
    exact ⟨rfl, rfl, rfl⟩
  · intro c path imgs h
    simp [decodeCount, (runOnKey_hit c path imgs h).1]
  · intro calls path imgs
    exact runOnKey_successfulDecodes _ path imgs
      (cacheImages_coherent ImageCache.empty calls coherent_empty (by simp [ImageCache.empty])).1

/-- Witness of C6 (amended): a hit on `a` in the cache of `a`, `b`, `c`; a run
of two calls on the cached `a`; a run of three calls on the new key `d` whose
first decode fails. -/
theorem cacheImage_hit_frame_witness :
    ((cacheImages ImageCache.empty threeCalls).m_imageCache.contains "a" = true ∧
      (cacheImage (cacheImages ImageCache.empty threeCalls) "a" QImage.null).decoded
        = (cacheImages ImageCache.empty threeCalls).decoded ∧
      (cacheImage (cacheImages ImageCache.empty threeCalls) "a" QImage.null).m_imageCache
        = (cacheImages ImageCache.empty threeCalls).m_imageCache ∧
      (cacheImage (cacheImages ImageCache.empty threeCalls) "a" QImage.null).m_cacheOrder
        = removeAll (cacheImages ImageCache.empty threeCalls).m_cacheOrder "a" ++ ["a"]) ∧
    decodeCount (cacheImages (cacheImages ImageCache.empty threeCalls)
        (runOnKey "a" [QImage.null, .loaded 4 3 5]))
      = decodeCount (cacheImages ImageCache.empty threeCalls) ∧
    successfulDecodes (cacheImages (cacheImages ImageCache.empty threeCalls)
        (runOnKey "d" [QImage.null, .loaded 4 3 4, .loaded 4 3 4])) "d"
      ≤ successfulDecodes (cacheImages ImageCache.empty threeCalls) "d" + 1 :=
  ⟨⟨by decide,
    cacheImage_hit_frame.1 (cacheImages ImageCache.empty threeCalls) "a" QImage.null (by decide)⟩,
   cacheImage_hit_frame.2.1 (cacheImages ImageCache.empty threeCalls) "a"
    [QImage.null, .loaded 4 3 5] (by decide),
   cacheImage_hit_frame.2.2 threeCalls "d" [QImage.null, .loaded 4 3 4, .loaded 4 3 4]⟩

/-- Counterexample to C6 as stated: from the empty cache, a run of two
consecutive `cacheImage` calls on the key `x`, whose decode fails both times,
runs the decoder on `x` twice. -/
theorem failed_decode_is_repeated :
    (cacheImages ImageCache.empty (runOnKey "x" [QImage.null, QImage.null])).decoded
      = [("x", QImage.null), ("x", QImage.null)] ∧
    decodeCount (cacheImages ImageCache.empty (runOnKey "x" [QImage.null, QImage.null])) = 2 ∧
    ¬ (decodeCount (cacheImages ImageCache.empty (runOnKey "x" [QImage.null, QImage.null]))
        ≤ decodeCount ImageCache.empty + 1) := by
  decide

/-- C7: for every cache state and every key that is not cached and whose
decode fails, `cacheImage` leaves the hash and the recency list as they were. -/
theorem cacheImage_decode_failure (c : ImageCache) (path : String) (img : QImage)
    (hmiss : c.m_imageCache.contains path = false) (hfail : img.isNull = true) :
    (cacheImage c path img).m_imageCache = c.m_imageCache ∧
    (cacheImage c path img).m_cacheOrder = c.m_cacheOrder :=
  cacheImage_fail_unchanged c path img hmiss hfail

/-- Witness of C7: the cache of `a`, `b`, `c` and the key `z` that fails to
decode. -/
theorem cacheImage_decode_failure_witness :
    (cacheImages ImageCache.empty threeCalls).m_imageCache.contains "z" = false ∧
    QImage.null.isNull = true ∧
    (cacheImage (cacheImages ImageCache.empty threeCalls) "z" QImage.null).m_imageCache
      = (cacheImages ImageCache.empty threeCalls).m_imageCache ∧
    (cacheImage (cacheImages ImageCache.empty threeCalls) "z" QImage.null).m_cacheOrder
      = (cacheImages ImageCache.empty threeCalls).m_cacheOrder :=
  ⟨by decide, by decide,
   cacheImage_decode_failure (cacheImages ImageCache.empty threeCalls) "z" QImage.null
    (by decide) (by decide)⟩

/-! ## Tick properties -/

/-- C8 (amended): in every tick whose scheduler step selects an event whose
file is not cached and fails to decode, the failed load leaves the cache as it
was and the image held for that file becomes the null image, for which
`renderWallpaper` draws nothing: for a Static event `m_currentStaticImage` is
null afterwards (the hash, the recency list and the two transition images are
unchanged, and the frame rendered from the new state is empty); for a
Transition event `m_transitionFromImage` is null when `fromFile` is not cached
and fails to decode, and `m_transitionToImage` is null when `toFile` is not
cached and fails to decode (`m_currentStaticImage` is unchanged). -/
theorem tick_decode_failure_null_image (w : World) (s : WallpaperWindow) (index : Nat)
    (elapsed : Int)
    (hs : schedule s.m_events (secsTo s.m_startTime (some w.currentDateTime))
      = some (index, elapsed)) :
    (∀ se, s.m_events[index]? = some (.Static se) →
        s.cache.m_imageCache.contains se.file = false → (w.decode se.file).isNull = true →
        (updateWallpaper w s).m_currentStaticImage = QImage.null ∧
        (updateWallpaper w s).cache.m_imageCache = s.cache.m_imageCache ∧
        (updateWallpaper w s).cache.m_cacheOrder = s.cache.m_cacheOrder ∧
        (updateWallpaper w s).m_transitionFromImage = s.m_transitionFromImage ∧
        (updateWallpaper w s).m_transitionToImage = s.m_transitionToImage ∧
        renderWallpaper (updateWallpaper w s) w.geometry = []) ∧
    (∀ te, s.m_events[index]? = some (.Transition te) →
        s.cache.m_imageCache.contains te.fromFile = false → (w.decode te.fromFile).isNull = true →
        (updateWallpaper w s).m_transitionFromImage = QImage.null ∧
        (updateWallpaper w s).m_currentStaticImage = s.m_currentStaticImage) ∧
    (∀ te, s.m_events[index]? = some (.Transition te) →
        s.cache.m_imageCache.contains te.toFile = false → (w.decode te.toFile).isNull = true →
        (updateWallpaper w s).m_transitionToImage = QImage.null ∧
        (updateWallpaper w s).m_currentStaticImage = s.m_currentStaticImage) := by
  refine ⟨?_, ?_, ?_⟩
  · intro se he hmiss hfail
    have hstep := cacheImage_fail_unchanged s.cache se.file (w.decode se.file) hmiss hfail
    have hnk : se.file ∉ s.cache.m_imageCache.keys := (QHash.contains_eq_false_iff _ _).1 hmiss
    rw [updateWallpaper_of_schedule w s index elapsed _ hs he]
    split <;>
      simp [loadEventImages, hstep.1, hstep.2, QHash.value_of_not_mem _ _ hnk, renderWallpaper,
        drawImagePreserveAspectCrop]
  · intro te he hmiss hfail
    have hstep := cacheImage_fail_unchanged s.cache te.fromFile (w.decode te.fromFile) hmiss hfail
    have hnk : te.fromFile ∉ s.cache.m_imageCache.keys := (QHash.contains_eq_false_iff _ _).1 hmiss
    have hnk2 : te.fromFile ∉
        (cacheImage (cacheImage s.cache te.fromFile (w.decode te.fromFile)) te.toFile
          (w.decode te.toFile)).m_imageCache.keys := by
      intro hmem
      rcases cacheImage_keys_subset _ _ _ _ hmem with h1 | ⟨h1, h2⟩
      · rw [hstep.1] at h1; exact hnk h1
      · rw [← h1, hfail] at h2; exact Bool.noConfusion h2
    rw [updateWallpaper_of_schedule w s index elapsed _ hs he]
    split <;> simp [loadEventImages, QHash.value_of_not_mem _ _ hnk2]
  · intro te he hmiss hfail
    have hnk : te.toFile ∉ s.cache.m_imageCache.keys := (QHash.contains_eq_false_iff _ _).1 hmiss
    have hnk1 : te.toFile ∉
        (cacheImage s.cache te.fromFile (w.decode te.fromFile)).m_imageCache.keys := by
      intro hmem
      rcases cacheImage_keys_subset _ _ _ _ hmem with h1 | ⟨h1, h2⟩
      · exact hnk h1
      · rw [← h1, hfail] at h2; exact Bool.noConfusion h2
    have hstep := cacheImage_fail_unchanged
      (cacheImage s.cache te.fromFile (w.decode te.fromFile)) te.toFile
      (w.decode te.toFile) ((QHash.contains_eq_false_iff _ _).2 hnk1) hfail
    have hnk2 : te.toFile ∉
        (cacheImage (cacheImage s.cache te.fromFile (w.decode te.fromFile)) te.toFile
          (w.decode te.toFile)).m_imageCache.keys := by
      rw [hstep.1]; exact hnk1
    rw [updateWallpaper_of_schedule w s index elapsed _ hs he]
    split <;> simp [loadEventImages, QHash.value_of_not_mem _ _ hnk2]

/-- Witness of C8 (amended): the window showing an image whose only event is
the still image `A`, and the window inside a crossfade from `A` to `B`, each
ticked in a world where nothing decodes. -/
theorem tick_decode_failure_null_image_witness :
    ((updateWallpaper brokenWorld showingWindow).m_currentStaticImage = QImage.null ∧
      (updateWallpaper brokenWorld showingWindow).cache.m_imageCache
        = showingWindow.cache.m_imageCache ∧
      (updateWallpaper brokenWorld showingWindow).cache.m_cacheOrder
        = showingWindow.cache.m_cacheOrder ∧
      (updateWallpaper brokenWorld showingWindow).m_transitionFromImage
        = showingWindow.m_transitionFromImage ∧
      (updateWallpaper brokenWorld showingWindow).m_transitionToImage
        = showingWindow.m_transitionToImage ∧
      renderWallpaper (updateWallpaper brokenWorld showingWindow) brokenWorld.geometry = []) ∧
    ((updateWallpaper brokenWorld fadingWindow).m_transitionFromImage = QImage.null ∧
      (updateWallpaper brokenWorld fadingWindow).m_currentStaticImage
        = fadingWindow.m_currentStaticImage) ∧
    ((updateWallpaper brokenWorld fadingWindow).m_transitionToImage = QImage.null ∧
      (updateWallpaper brokenWorld fadingWindow).m_currentStaticImage
        = fadingWindow.m_currentStaticImage) :=
  ⟨(tick_decode_failure_null_image brokenWorld showingWindow 0 5 (by decide)).1
      ⟨10, "A"⟩ (by decide) (by decide) (by decide),
   (tick_decode_failure_null_image brokenWorld fadingWindow 0 5 (by decide)).2.1
      ⟨20, "A", "B"⟩ (by decide) (by decide) (by decide),
   (tick_decode_failure_null_image brokenWorld fadingWindow 0 5 (by decide)).2.2
      ⟨20, "A", "B"⟩ (by decide) (by decide) (by decide)⟩

/-- Counterexample to C8 as stated: the window shows a decoded image, its
active event is the still image `A`, `A` is not cached and fails to decode;
after the tick `m_currentStaticImage` is the null image, not the image shown
before, and the frame painted by the tick contains no image. -/
theorem tick_decode_failure_drops_image :
    showingWindow.m_currentStaticImage = QImage.loaded 4 3 7 ∧
    schedule showingWindow.m_events
      (secsTo showingWindow.m_startTime (some brokenWorld.currentDateTime)) = some (0, 5) ∧
    showingWindow.m_events[0]? = some (.Static ⟨10, "A"⟩) ∧
    showingWindow.cache.m_imageCache.contains "A" = false ∧
    (brokenWorld.decode "A").isNull = true ∧
    (updateWallpaper brokenWorld showingWindow).m_currentStaticImage = QImage.null ∧
    (updateWallpaper brokenWorld showingWindow).m_currentStaticImage
      ≠ showingWindow.m_currentStaticImage ∧
    (updateWallpaper brokenWorld showingWindow).painted = [[]] := by
  decide

/-- C9: for every window whose timeline has no events or whose `totalDuration`
is 0, the scheduler step of a tick yields no result and `updateWallpaper`
returns the window state unchanged: the stored event index and elapsed time,
`m_inTransition`, the held images, the image cache, the record of decodes and
the record of painted frames (no render is issued) are all as before. -/
theorem tick_degenerate_unchanged (w : World) (s : WallpaperWindow)
    (h : s.m_events = [] ∨ totalDuration s.m_events = 0) :
    schedule s.m_events (secsTo s.m_startTime (some w.currentDateTime)) = none ∧
    updateWallpaper w s = s ∧
    (updateWallpaper w s).painted = s.painted := by
  have hn : schedule s.m_events (secsTo s.m_startTime (some w.currentDateTime)) = none := by
    rcases h with h | h
    · simp [schedule, h]
    · simp [schedule, h]
  have he : updateWallpaper w s = s := by simp only [updateWallpaper, hn]
  exact ⟨hn, he, by rw [he]⟩

/-- Witness of C9: a window without events, and a window whose only event has
duration 0. -/
theorem tick_degenerate_unchanged_witness :
    (schedule emptyWindow.m_events
        (secsTo emptyWindow.m_startTime (some brokenWorld.currentDateTime)) = none ∧
      updateWallpaper brokenWorld emptyWindow = emptyWindow ∧
      (updateWallpaper brokenWorld emptyWindow).painted = emptyWindow.painted) ∧
    (schedule zeroWindow.m_events
        (secsTo zeroWindow.m_startTime (some brokenWorld.currentDateTime)) = none ∧
      updateWallpaper brokenWorld zeroWindow = zeroWindow ∧
      (updateWallpaper brokenWorld zeroWindow).painted = zeroWindow.painted) :=
  ⟨tick_degenerate_unchanged brokenWorld emptyWindow (Or.inl (by decide)),
   tick_degenerate_unchanged brokenWorld zeroWindow (Or.inr (by decide))⟩

/-! ## Geometry properties -/

theorem writeEntries_length (images : List String) (duration : Int) (count i : Nat) :
    (writeEntries images duration count i).length = 2 * count := by
  induction count generalizing i with
  | zero => rfl
  | succ k ih => simp only [writeEntries, List.length_cons, ih]; omega

theorem writeEntries_durationSum (images : List String) (duration : Int) (count i : Nat) :
    durationSum (writeEntries images duration count i)
      = (count : Int) * duration + (count : Int) * TRANSITION_DURATION := by
  induction count generalizing i with
  | zero => simp [writeEntries, durationSum]
  | succ k ih =>
    have h := ih (i + 1)
    simp only [durationSum] at h
    simp only [writeEntries, durationSum, List.map_cons, List.sum_cons, Event.duration, h]
    push_cast
    ring

theorem writeEntries_getElem (images : List String) (duration : Int) (count i j : Nat)
    (hj : j < count) :
    (writeEntries images duration count i)[2 * j]?
      = some (.Static ⟨duration, images.getD (i + j) ""⟩) ∧
    (writeEntries images duration count i)[2 * j + 1]?
      = some (.Transition ⟨TRANSITION_DURATION, images.getD (i + j) "",
          images.getD ((i + j + 1) % images.length) ""⟩) := by
  induction count generalizing i j with
  | zero => omega
  | succ k ih =>
    cases j with
    | zero => simp [writeEntries]
    | succ j =>
      have h := ih (i + 1) j (by omega)
      have e1 : 2 * (j + 1) = (2 * j) + 1 + 1 := by ring
      have e2 : 2 * (j + 1) + 1 = (2 * j + 1) + 1 + 1 := by ring
      have e3 : i + 1 + j = i + (j + 1) := by ring
      rw [e3] at h
      simp only [writeEntries, e1, e2, List.getElem?_cons_succ]
      exact h

theorem wrap32_natCast (n : Nat) (h : n < 2147483648) : wrap32 (n : Int) = n :=
  wrap32_of_inRange _ (by omega) (by omega)

theorem staticDuration_eq (n : Int) (h1 : 0 ≤ n) (h2 : n ≤ 1193046) :
    staticDuration n = Int.tdiv (86400 - n * 1800) n := by
  have ha : wrap32 (n * 1800) = n * 1800 := wrap32_of_inRange _ (by omega) (by omega)
  have hb : wrap32 (86400 - n * 1800) = 86400 - n * 1800 :=
    wrap32_of_inRange _ (by omega) (by omega)
  simp only [staticDuration, SECONDS_IN_DAY, TRANSITION_DURATION, ha, hb]

theorem staticDuration_sum (n : Int) (h1 : 2 ≤ n) (h2 : n ≤ 48) :
    n * staticDuration n + n * 1800 = 86400 - 86400 % n := by
  rw [staticDuration_eq n (by omega) (by omega)]
  have hn : (0 : Int) ≤ 86400 - n * 1800 := by omega
  rw [Int.tdiv_eq_ediv hn (by omega)]
  have h := Int.emod_add_ediv (86400 - n * 1800) n
  have hm : (86400 - n * 1800) % n = 86400 % n := by
    have e : 86400 - n * 1800 = 86400 + n * (-1800) := by ring
    rw [e, Int.add_mul_emod_self_left]
  rw [hm] at h
  linarith

/-! ## Scan lemmas -/

theorem tmod_nonpos_of_nonpos (a b : Int) (h : a ≤ 0) : Int.tmod a b ≤ 0 := by
  rcases a with m | m
  · have hm : m = 0 := by
      have h0 : ((m : Nat) : Int) ≤ 0 := h
      omega
    subst hm
    simp
  · rcases b with n | n
    · show -Int.ofNat (m.succ % n) ≤ 0
      exact Int.neg_nonpos_of_nonneg (Int.ofNat_nonneg _)
    · show -Int.ofNat (m.succ % n.succ) ≤ 0
      exact Int.neg_nonpos_of_nonneg (Int.ofNat_nonneg _)

theorem scanEvents_index_bounds (loopSec : Int) (events : List Event) (acc : Int) (idx : Nat) :
    idx ≤ (scanEvents loopSec events acc idx).1 ∧
    (scanEvents loopSec events acc idx).1 ≤ idx + events.length := by
  induction events generalizing acc idx with
  | nil => simp [scanEvents]
  | cons e rest ih =>
    simp only [scanEvents]
    split
    · simp
    · have := ih (wrap32 (acc + e.duration)) (idx + 1)
      simp only [List.length_cons]
      omega

theorem scanEvents_mono (l1 l2 : Int) (h : l1 ≤ l2) (events : List Event) (acc : Int) (idx : Nat) :
    (scanEvents l1 events acc idx).1 ≤ (scanEvents l2 events acc idx).1 := by
  induction events generalizing acc idx with
  | nil => simp [scanEvents]
  | cons e rest ih =>
    by_cases h2 : l2 < wrap32 (acc + e.duration)
    · have h1 : l1 < wrap32 (acc + e.duration) := by omega
      simp [scanEvents, h1, h2]
    · by_cases h1 : l1 < wrap32 (acc + e.duration)
      · have := (scanEvents_index_bounds l2 rest (wrap32 (acc + e.duration)) (idx + 1)).1
        simp only [scanEvents, h1, h2, if_true, if_false]
        omega
      · simp only [scanEvents, h1, h2, if_false]
        exact ih _ _

theorem scanEvents_found (loopSec : Int) (events : List Event) (acc : Int) (idx : Nat)
    (hne : events ≠ [])
    (h : loopSec < events.foldl (fun total e => wrap32 (total + e.duration)) acc) :
    (scanEvents loopSec events acc idx).1 < idx + events.length := by
  induction events generalizing acc idx with
  | nil => exact absurd rfl hne
  | cons e rest ih =>
    by_cases h1 : loopSec < wrap32 (acc + e.duration)
    · simp [scanEvents, h1]
    · simp only [scanEvents, h1, if_false, List.length_cons]
      cases rest with
      | nil => simp only [List.foldl_cons, List.foldl_nil] at h; exact absurd h h1
      | cons e2 rest2 =>
        have := ih (wrap32 (acc + e.duration)) (idx + 1) (by simp) (by simpa using h)
        simp only [List.length_cons] at this ⊢
        omega

theorem scanEvents_overrun (loopSec : Int) (events : List Event) (acc : Int) (idx : Nat)
    (h : idx + events.length ≤ (scanEvents loopSec events acc idx).1) :
    (scanEvents loopSec events acc idx).2
      = events.foldl (fun total e => wrap32 (total + e.duration)) acc := by
  induction events generalizing acc idx with
  | nil => simp [scanEvents]
  | cons e rest ih =>
    by_cases h1 : loopSec < wrap32 (acc + e.duration)
    · simp [scanEvents, h1] at h
    · simp only [scanEvents, h1, if_false, List.length_cons, List.foldl_cons] at h ⊢
      exact ih _ _ (by omega)

theorem writeEntries_countP (images : List String) (duration : Int) (count i : Nat) :
    (writeEntries images duration count i).countP Event.isStatic = count ∧
    (writeEntries images duration count i).countP (fun e => !e.isStatic) = count := by
  induction count generalizing i with
  | zero => simp [writeEntries]
  | succ k ih =>
    have h := ih (i + 1)
    have hs : ∀ se, Event.isStatic (.Static se) = true := fun _ => rfl
    have ht : ∀ te, Event.isStatic (.Transition te) = false := fun _ => rfl
    simp only [writeEntries, List.countP_cons, h.1, h.2, hs, ht]
    simp

theorem durationSum_take_succ (events : List Event) (j : Nat) (hj : j < events.length) :
    durationSum (events.take (j + 1)) = durationSum (events.take j) + (events[j]).duration := by
  induction events generalizing j with
  | nil => simp at hj
  | cons e rest ih =>
    cases j with
    | zero => simp [durationSum]
    | succ j =>
      have h := ih j (by simpa using hj)
      simp only [durationSum, List.take_succ_cons, List.map_cons, List.sum_cons,
        List.getElem_cons_succ] at h ⊢
      omega

theorem durationSum_take_mono (events : List Event) (hpos : ∀ e ∈ events, 0 < e.duration)
    (a b : Nat) (hab : a ≤ b) :
    durationSum (events.take a) ≤ durationSum (events.take b) := by
  induction events generalizing a b with
  | nil => simp [durationSum]
  | cons e rest ih =>
    have he := hpos e (List.mem_cons_self _ _)
    have hrest : ∀ x ∈ rest, 0 < x.duration := fun x hx => hpos x (List.mem_cons_of_mem _ hx)
    cases a with
    | zero =>
      have := durationSum_nonneg ((e :: rest).take b)
        (fun x hx => hpos x (List.mem_of_mem_take hx))
      simpa [durationSum] using this
    | succ a =>
      cases b with
      | zero => omega
      | succ b =>
        have h := ih hrest a b (by omega)
        simp only [durationSum, List.take_succ_cons, List.map_cons, List.sum_cons] at h ⊢
        omega

theorem mem_evict_second_last (pre : List String) (a b : String) (cache : QHash) :
    a ∈ (evict (pre ++ [a, b]) cache).1 := by
  induction pre generalizing cache with
  | nil => simp [evict, m_cacheLimit]
  | cons x rest ih =>
    rw [List.cons_append, evict_cons]
    split
    · exact ih _
    · simp

theorem evict_order_eq_drop (l : List String) (cache : QHash) :
    (evict l cache).1 = l.drop (l.length - m_cacheLimit) := by
  induction l generalizing cache with
  | nil => simp [evict]
  | cons a rest ih =>
    rw [evict_cons]
    split
    · rename_i h
      rw [ih]
      have e : (a :: rest).length - m_cacheLimit = (rest.length - m_cacheLimit) + 1 := by
        simp only [List.length_cons] at h ⊢
        omega
      rw [e, List.drop_succ_cons]
    · rename_i h
      have e : (a :: rest).length - m_cacheLimit = 0 := by omega
      rw [e, List.drop_zero]

theorem cacheImage_order_ends (c : ImageCache) (path : String) (img : QImage)
    (h : c.m_imageCache.contains path = true ∨ img.isNull = false) :
    ∃ pre, (cacheImage c path img).m_cacheOrder = pre ++ [path] := by
  by_cases hc : c.m_imageCache.contains path = true
  · exact ⟨removeAll c.m_cacheOrder path, by rw [cacheImage_hit c path img hc]⟩
  · have hc2 : c.m_imageCache.contains path = false := by simpa using hc
    have hi : img.isNull = false := by
      rcases h with h | h
      · exact absurd h hc
      · exact h
    rw [cacheImage_miss_ok c path img hc2 hi]
    refine ⟨c.m_cacheOrder.drop ((c.m_cacheOrder ++ [path]).length - m_cacheLimit), ?_⟩
    show (evict (c.m_cacheOrder ++ [path]) (c.m_imageCache.insert path img)).1 = _
    rw [evict_order_eq_drop, List.drop_append_of_le_length]
    simp only [List.length_append, List.length_singleton, m_cacheLimit]
    omega

theorem evict_entries_subset (l : List String) (cache : QHash) (e : String × QImage)
    (h : e ∈ (evict l cache).2.entries) : e ∈ cache.entries := by
  induction l generalizing cache with
  | nil => exact h
  | cons a rest ih =>
    rw [evict_cons] at h
    split at h
    · have := ih _ h
      simp only [QHash.remove, List.mem_filter] at this
      exact this.1
    · exact h

theorem cacheImage_allDecoded (c : ImageCache) (path : String) (img : QImage)
    (h : c.AllDecoded) : (cacheImage c path img).AllDecoded := by
  by_cases hc : c.m_imageCache.contains path = true
  · rw [cacheImage_hit c path img hc]; exact h
  · have hc2 : c.m_imageCache.contains path = false := by simpa using hc
    by_cases hi : img.isNull = true
    · rw [(isNull_eq_true_iff img).1 hi, cacheImage_miss_fail c path hc2]
      intro e he
      exact ⟨(h e he).1, List.mem_append_left _ (h e he).2⟩
    · have hi2 : img.isNull = false := by simpa using hi
      rw [cacheImage_miss_ok c path img hc2 hi2]
      intro e he
      have h2 := evict_entries_subset _ _ e he
      simp only [QHash.insert, hc2, Bool.false_eq_true, if_false, List.mem_append,
        List.mem_singleton] at h2
      rcases h2 with h3 | h3
      · exact ⟨(h e h3).1, List.mem_append_left _ (h e h3).2⟩
      · rw [h3]
        exact ⟨hi2, List.mem_append_right _ (List.mem_singleton.2 rfl)⟩

theorem cacheImages_allDecoded (c : ImageCache) (calls : List (String × QImage))
    (h : c.AllDecoded) : (cacheImages c calls).AllDecoded := by
  induction calls generalizing c with
  | nil => exact h
  | cons x rest ih =>
    simp only [cacheImages, List.foldl_cons]
    exact ih _ (cacheImage_allDecoded c x.1 x.2 h)

theorem allDecoded_empty : ImageCache.empty.AllDecoded := by
  intro e he
  simp [ImageCache.empty] at he

theorem QHash.value_mem (m : QHash) (k : String) (h : k ∈ m.keys) :
    (k, m.value k) ∈ m.entries := by
  obtain ⟨entries⟩ := m
  simp only [QHash.keys, List.mem_map] at h
  obtain ⟨e, he, hek⟩ := h
  simp only [QHash.value]
  cases hf : List.find? (fun e : String × QImage => decide (e.1 = k)) entries with
  | none =>
    rw [List.find?_eq_none] at hf
    have := hf e he
    simp [hek] at this
  | some x =>
    have hx := List.find?_some hf
    have hm := List.mem_of_find?_eq_some hf
    simp only [decide_eq_true_eq] at hx
    simp only
    rw [← hx]
    exact hm

theorem AllDecoded.value_decoded (c : ImageCache) (h : c.AllDecoded) (k : String)
    (hk : c.m_imageCache.contains k = true) :
    (c.m_imageCache.value k).isNull = false ∧ (k, c.m_imageCache.value k) ∈ c.decoded :=
  h _ (QHash.value_mem _ _ ((QHash.contains_iff _ _).1 hk))

theorem cacheImage_contains_path (c : ImageCache) (path : String) (img : QImage)
    (hco : c.Coherent) (hok : img.isNull = false) :
    (cacheImage c path img).m_imageCache.contains path = true := by
  by_cases hc : c.m_imageCache.contains path = true
  · rw [cacheImage_hit c path img hc]; exact hc
  · exact cacheImage_contains_after_ok c path img hco (by simpa using hc) hok

theorem cacheImage_pair_contains (c : ImageCache) (fromFile toFile : String)
    (imgFrom imgTo : QImage) (hco : c.Coherent)
    (hf : imgFrom.isNull = false) (ht : imgTo.isNull = false) :
    (cacheImage (cacheImage c fromFile imgFrom) toFile imgTo).m_imageCache.contains fromFile = true ∧
    (cacheImage (cacheImage c fromFile imgFrom) toFile imgTo).m_imageCache.contains toFile = true := by
  have hco1 := cacheImage_coherent c fromFile imgFrom hco
  have hco2 := cacheImage_coherent (cacheImage c fromFile imgFrom) toFile imgTo hco1
  have hin1 := cacheImage_contains_path c fromFile imgFrom hco hf
  refine ⟨?_, cacheImage_contains_path _ toFile imgTo hco1 ht⟩
  by_cases hc : (cacheImage c fromFile imgFrom).m_imageCache.contains toFile = true
  · rw [cacheImage_hit _ toFile imgTo hc]; exact hin1
  · have hc2 : (cacheImage c fromFile imgFrom).m_imageCache.contains toFile = false := by
      simpa using hc
    obtain ⟨pre, hpre⟩ := cacheImage_order_ends c fromFile imgFrom (Or.inr hf)
    rw [QHash.contains_iff, ← hco2.2.2 fromFile, cacheImage_miss_ok _ toFile imgTo hc2 ht]
    show fromFile ∈ (evict ((cacheImage c fromFile imgFrom).m_cacheOrder ++ [toFile]) _).1
    rw [hpre, List.append_assoc]
    exact mem_evict_second_last pre fromFile toFile _

/-! ## Loader lemmas -/

theorem readElementTextLoop_text (text name : String) (rest : List Token) :
    readElementTextLoop (textTokens text ++ .EndElement name :: rest) ""
      = (text, ⟨rest, .EndElement name, false⟩) := by
  by_cases h : text = ""
  · subst h
    simp [textTokens, readElementTextLoop]
  · simp [textTokens, h, readElementTextLoop]

theorem fieldTokens_append (name text : String) (rest : List Token) :
    fieldTokens name text ++ rest
      = .StartElement name :: (textTokens text ++ .EndElement name :: rest) := by
  simp [fieldTokens]

theorem readStatic_element (sep duration file : String) (rest : List Token) (se : StaticEvent)
    (fuel : Nat) (hfuel : 7 ≤ fuel) :
    readStatic fuel
      ⟨.Characters sep :: (fieldTokens "duration" duration ++ (.Characters sep ::
        (fieldTokens "file" file ++ (.Characters sep :: .EndElement "static" :: rest)))),
       .StartElement "static", false⟩ se
    = some (⟨rest, .EndElement "static", false⟩, ⟨toInt duration, file⟩) := by
  obtain ⟨n, rfl⟩ : ∃ n, fuel = n + 7 := ⟨fuel - 7, by omega⟩
  simp [readStatic, QXmlStreamReader.readNext, QXmlStreamReader.readElementText,
    fieldTokens_append, readElementTextLoop_text]

theorem readTransition_element (sep duration fromFile toFile : String) (rest : List Token)
    (te : TransitionEvent) (fuel : Nat) (hfuel : 9 ≤ fuel) :
    readTransition fuel
      ⟨.Characters sep :: (fieldTokens "duration" duration ++ (.Characters sep ::
        (fieldTokens "from" fromFile ++ (.Characters sep ::
          (fieldTokens "to" toFile ++ (.Characters sep :: .EndElement "transition" :: rest)))))),
       .StartElement "transition", false⟩ te
    = some (⟨rest, .EndElement "transition", false⟩, ⟨toInt duration, fromFile, toFile⟩) := by
  obtain ⟨n, rfl⟩ : ∃ n, fuel = n + 9 := ⟨fuel - 9, by omega⟩
  simp [readTransition, QXmlStreamReader.readNext, QXmlStreamReader.readElementText,
    fieldTokens_append, readElementTextLoop_text]

theorem readStartTime_element (sep : String) (d : ScheduleDoc) (rest : List Token)
    (fuel : Nat) (hfuel : 15 ≤ fuel) :
    readStartTime fuel
      ⟨.Characters sep :: (fieldTokens "year" d.year ++ (.Characters sep ::
        (fieldTokens "month" d.month ++ (.Characters sep ::
          (fieldTokens "day" d.day ++ (.Characters sep ::
            (fieldTokens "hour" d.hour ++ (.Characters sep ::
              (fieldTokens "minute" d.minute ++ (.Characters sep ::
                (fieldTokens "second" d.second ++
                  (.Characters sep :: .EndElement "starttime" :: rest)))))))))))),
       .StartElement "starttime", false⟩ ⟨0, 0, 0, 0, 0, 0⟩
    = some (⟨rest, .EndElement "starttime", false⟩, d.startTimeFields) := by
  obtain ⟨n, rfl⟩ : ∃ n, fuel = n + 15 := ⟨fuel - 15, by omega⟩
  simp [readStartTime, QXmlStreamReader.readNext, QXmlStreamReader.readElementText,
    fieldTokens_append, readElementTextLoop_text, ScheduleDoc.startTimeFields]

theorem loadLoop_succ (env : LoadEnv) (fuel : Nat) (xml : QXmlStreamReader)
    (s : WallpaperWindow) :
    loadLoop env (fuel + 1) xml s =
      if xml.atEnd || xml.hasError then some (xml, s)
      else
        match xml.readNext.current with
        | .StartElement name =>
          if name = "starttime" then
            match readStartTime fuel xml.readNext ⟨0, 0, 0, 0, 0, 0⟩ with
            | none => none
            | some (xml2, f) => loadLoop env fuel xml2 { s with m_startTime := env.makeDateTime f }
          else if name = "static" then
            match readStatic fuel xml.readNext ⟨env.indeterminate, ""⟩ with
            | none => none
            | some (xml2, se) =>
              loadLoop env fuel xml2 { s with m_events := s.m_events ++ [.Static se] }
          else if name = "transition" then
            match readTransition fuel xml.readNext ⟨env.indeterminate, "", ""⟩ with
            | none => none
            | some (xml2, te) =>
              loadLoop env fuel xml2 { s with m_events := s.m_events ++ [.Transition te] }
          else loadLoop env fuel xml.readNext s
        | _ => loadLoop env fuel xml.readNext s := rfl

theorem readNext_cons (t : Token) (rest : List Token) (cur : Token) :
    (⟨t :: rest, cur, false⟩ : QXmlStreamReader).readNext = ⟨rest, t, false⟩ := rfl

theorem loadLoop_skip (env : LoadEnv) (fuel : Nat) (xml : QXmlStreamReader) (s : WallpaperWindow)
    (h1 : xml.atEnd = false) (h2 : xml.hasError = false)
    (h3 : ∀ name, xml.readNext.current = .StartElement name →
      name ≠ "starttime" ∧ name ≠ "static" ∧ name ≠ "transition") :
    loadLoop env (fuel + 1) xml s = loadLoop env fuel xml.readNext s := by
  rw [loadLoop_succ]
  simp only [h1, h2, Bool.or_self, Bool.false_eq_true, if_false]
  cases hc : xml.readNext.current with
  | StartElement name =>
    obtain ⟨ha, hb, hd⟩ := h3 name hc
    simp only [ha, hb, hd, if_false]
  | _ => rfl

theorem loadLoop_at_starttime (env : LoadEnv) (fuel : Nat) (xml xml2 : QXmlStreamReader)
    (f : StartTimeFields) (s : WallpaperWindow)
    (h1 : xml.atEnd = false) (h2 : xml.hasError = false)
    (h3 : xml.readNext.current = .StartElement "starttime")
    (h4 : readStartTime fuel xml.readNext ⟨0, 0, 0, 0, 0, 0⟩ = some (xml2, f)) :
    loadLoop env (fuel + 1) xml s
      = loadLoop env fuel xml2 { s with m_startTime := env.makeDateTime f } := by
  rw [loadLoop_succ]
  simp only [h1, h2, h3, h4, Bool.or_self, Bool.false_eq_true, if_false, if_true]

theorem loadLoop_at_static (env : LoadEnv) (fuel : Nat) (xml xml2 : QXmlStreamReader)
    (se : StaticEvent) (s : WallpaperWindow)
    (h1 : xml.atEnd = false) (h2 : xml.hasError = false)
    (h3 : xml.readNext.current = .StartElement "static")
    (h4 : readStatic fuel xml.readNext ⟨env.indeterminate, ""⟩ = some (xml2, se)) :
    loadLoop env (fuel + 1) xml s
      = loadLoop env fuel xml2 { s with m_events := s.m_events ++ [.Static se] } := by
  rw [loadLoop_succ]
  simp only [h1, h2, h3, h4, Bool.or_self, Bool.false_eq_true, if_false, if_true]
  rw [if_neg (by decide)]

theorem loadLoop_at_transition (env : LoadEnv) (fuel : Nat) (xml xml2 : QXmlStreamReader)
    (te : TransitionEvent) (s : WallpaperWindow)
    (h1 : xml.atEnd = false) (h2 : xml.hasError = false)
    (h3 : xml.readNext.current = .StartElement "transition")
    (h4 : readTransition fuel xml.readNext ⟨env.indeterminate, "", ""⟩ = some (xml2, te)) :
    loadLoop env (fuel + 1) xml s
      = loadLoop env fuel xml2 { s with m_events := s.m_events ++ [.Transition te] } := by
  rw [loadLoop_succ]
  simp only [h1, h2, h3, h4, Bool.or_self, Bool.false_eq_true, if_false, if_true]
  rw [if_neg (by decide), if_neg (by decide)]

theorem atEnd_of_ne (pending : List Token) (cur : Token)
    (hcur : cur ≠ .EndDocument ∧ cur ≠ .Invalid) :
    (⟨pending, cur, false⟩ : QXmlStreamReader).atEnd = false := by
  simp [QXmlStreamReader.atEnd, hcur.1, hcur.2]

theorem loadLoop_skip_characters (env : LoadEnv) (fuel : Nat) (text : String)
    (rest : List Token) (cur : Token) (hcur : cur ≠ .EndDocument ∧ cur ≠ .Invalid)
    (s : WallpaperWindow) :
    loadLoop env (fuel + 1) ⟨.Characters text :: rest, cur, false⟩ s
      = loadLoop env fuel ⟨rest, .Characters text, false⟩ s := by
  rw [loadLoop_skip env fuel _ s (atEnd_of_ne _ _ hcur) rfl, readNext_cons]
  intro name h
  rw [readNext_cons] at h
  exact Token.noConfusion h

theorem loadLoop_event (env : LoadEnv) (sep : String) (e : EventElem) (rest : List Token)
    (cur : Token) (hcur : cur ≠ .EndDocument ∧ cur ≠ .Invalid)
    (s : WallpaperWindow) (fuel : Nat) (hfuel : 10 ≤ fuel) :
    loadLoop env (fuel + 2) ⟨e.tokens sep ++ rest, cur, false⟩ s
      = loadLoop env fuel ⟨rest, .Characters sep, false⟩
          { s with m_events := s.m_events ++ [e.toEvent] } := by
  cases e with
  | static duration file =>
    have h := readStatic_element sep duration file (.Characters sep :: rest)
      ⟨env.indeterminate, ""⟩ (fuel + 1) (by omega)
    have htok : (EventElem.static duration file).tokens sep ++ rest
        = .StartElement "static" :: .Characters sep :: (fieldTokens "duration" duration ++
            (.Characters sep :: (fieldTokens "file" file ++
              (.Characters sep :: .EndElement "static" :: .Characters sep :: rest)))) := by
      simp [EventElem.tokens]
    rw [htok, show fuel + 2 = (fuel + 1) + 1 from rfl,
      loadLoop_at_static env (fuel + 1)
        ⟨.StartElement "static" :: .Characters sep :: (fieldTokens "duration" duration ++
            (.Characters sep :: (fieldTokens "file" file ++
              (.Characters sep :: .EndElement "static" :: .Characters sep :: rest)))), cur, false⟩
        _ _ s (atEnd_of_ne _ _ hcur) rfl rfl h,
      loadLoop_skip_characters env fuel sep rest _ (by simp)]
    rfl
  | transition duration fromFile toFile =>
    have h := readTransition_element sep duration fromFile toFile (.Characters sep :: rest)
      ⟨env.indeterminate, "", ""⟩ (fuel + 1) (by omega)
    have htok : (EventElem.transition duration fromFile toFile).tokens sep ++ rest
        = .StartElement "transition" :: .Characters sep :: (fieldTokens "duration" duration ++
            (.Characters sep :: (fieldTokens "from" fromFile ++ (.Characters sep ::
              (fieldTokens "to" toFile ++
                (.Characters sep :: .EndElement "transition" :: .Characters sep :: rest)))))) := by
      simp [EventElem.tokens]
    rw [htok, show fuel + 2 = (fuel + 1) + 1 from rfl,
      loadLoop_at_transition env (fuel + 1)
        ⟨.StartElement "transition" :: .Characters sep :: (fieldTokens "duration" duration ++
            (.Characters sep :: (fieldTokens "from" fromFile ++ (.Characters sep ::
              (fieldTokens "to" toFile ++
                (.Characters sep :: .EndElement "transition" :: .Characters sep :: rest)))))),
          cur, false⟩
        _ _ s (atEnd_of_ne _ _ hcur) rfl rfl h,
      loadLoop_skip_characters env fuel sep rest _ (by simp)]
    rfl

theorem loadLoop_events (env : LoadEnv) (sep : String) (events : List EventElem)
    (rest : List Token) (s : WallpaperWindow) (fuel : Nat) (hfuel : 10 ≤ fuel) :
    loadLoop env (fuel + 2 * events.length)
        ⟨eventTokens sep events ++ rest, .Characters sep, false⟩ s
      = loadLoop env fuel ⟨rest, .Characters sep, false⟩
          { s with m_events := s.m_events ++ events.map EventElem.toEvent } := by
  induction events generalizing s with
  | nil => simp [eventTokens]
  | cons e es ih =>
    have hstep := loadLoop_event env sep e (eventTokens sep es ++ rest) (.Characters sep)
      (by simp) s (fuel + 2 * es.length) (by omega)
    have hf : fuel + 2 * (e :: es).length = fuel + 2 * es.length + 2 := by
      simp only [List.length_cons]; omega
    rw [hf, eventTokens, List.append_assoc, hstep, ih]
    simp [List.append_assoc]

theorem loadLoop_startTime (env : LoadEnv) (sep : String) (d : ScheduleDoc) (rest : List Token)
    (cur : Token) (hcur : cur ≠ .EndDocument ∧ cur ≠ .Invalid)
    (s : WallpaperWindow) (fuel : Nat) (hfuel : 16 ≤ fuel) :
    loadLoop env (fuel + 2) ⟨d.startTimeTokens sep ++ rest, cur, false⟩ s
      = loadLoop env fuel ⟨rest, .Characters sep, false⟩
          { s with m_startTime := env.makeDateTime d.startTimeFields } := by
  have h := readStartTime_element sep d (.Characters sep :: rest) (fuel + 1) (by omega)
  have htok : d.startTimeTokens sep ++ rest
      = .StartElement "starttime" :: .Characters sep :: (fieldTokens "year" d.year ++
          (.Characters sep :: (fieldTokens "month" d.month ++ (.Characters sep ::
            (fieldTokens "day" d.day ++ (.Characters sep ::
              (fieldTokens "hour" d.hour ++ (.Characters sep ::
                (fieldTokens "minute" d.minute ++ (.Characters sep ::
                  (fieldTokens "second" d.second ++ (.Characters sep ::
                    .EndElement "starttime" :: .Characters sep :: rest)))))))))))) := by
    simp [ScheduleDoc.startTimeTokens]
  rw [htok, show fuel + 2 = (fuel + 1) + 1 from rfl,
    loadLoop_at_starttime env (fuel + 1)
      ⟨.StartElement "starttime" :: .Characters sep :: (fieldTokens "year" d.year ++
          (.Characters sep :: (fieldTokens "month" d.month ++ (.Characters sep ::
            (fieldTokens "day" d.day ++ (.Characters sep ::
              (fieldTokens "hour" d.hour ++ (.Characters sep ::
                (fieldTokens "minute" d.minute ++ (.Characters sep ::
                  (fieldTokens "second" d.second ++ (.Characters sep ::
                    .EndElement "starttime" :: .Characters sep :: rest)))))))))))), cur, false⟩
      _ _ s (atEnd_of_ne _ _ hcur) rfl rfl h,
    loadLoop_skip_characters env fuel sep rest _ (by simp)]

theorem loadLoop_document (env : LoadEnv) (sep : String) (d : ScheduleDoc) (s : WallpaperWindow)
    (fuel : Nat) (hfuel : 2 * d.events.length + 21 ≤ fuel) :
    loadLoop env fuel ⟨d.tokens sep, .NoToken, false⟩ s
      = some (⟨[], .EndDocument, false⟩,
          { s with m_startTime := env.makeDateTime d.startTimeFields,
                   m_events := s.m_events ++ d.events.map EventElem.toEvent }) := by
  obtain ⟨n, rfl⟩ : ∃ n, fuel = n + 1 + 1 + 1 + 7 + 2 * d.events.length + 2 + 1 + 1 + 1 :=
    ⟨fuel - (2 * d.events.length + 15), by omega⟩
  have htok : d.tokens sep = .StartDocument :: .StartElement "background" :: .Characters sep ::
      (d.startTimeTokens sep ++ (eventTokens sep d.events ++
        [.EndElement "background", .EndDocument])) := by
    simp [ScheduleDoc.tokens]
  rw [htok, loadLoop_skip env _ _ s (atEnd_of_ne _ _ (by simp)) rfl
      (by intro name h; rw [readNext_cons] at h; exact Token.noConfusion h),
    readNext_cons,
    loadLoop_skip env _ _ s (atEnd_of_ne _ _ (by simp)) rfl
      (by
        intro name h
        rw [readNext_cons] at h
        have hn : name = "background" := (Token.StartElement.inj h).symm
        subst hn
        decide),
    readNext_cons,
    loadLoop_skip_characters env _ sep _ _ (by simp),
    loadLoop_startTime env sep d _ _ (by simp) s _ (by omega),
    loadLoop_events env sep d.events _ _ _ (by omega),
    loadLoop_skip env _ _ _ (atEnd_of_ne _ _ (by simp)) rfl
      (by intro name h; rw [readNext_cons] at h; exact Token.noConfusion h),
    readNext_cons,
    loadLoop_skip env _ _ _ (atEnd_of_ne _ _ (by simp)) rfl
      (by intro name h; rw [readNext_cons] at h; exact Token.noConfusion h),
    readNext_cons, loadLoop_succ]
  rfl

theorem eventTokens_length (sep : String) (events : List EventElem) :
    10 * events.length ≤ (eventTokens sep events).length := by
  induction events with
  | nil => simp [eventTokens]
  | cons e es ih =>
    cases e <;>
      simp only [eventTokens, EventElem.tokens, fieldTokens, List.length_append, List.length_cons,
        List.length_nil] <;> omega

theorem loadXml_document (env : LoadEnv) (sep : String) (d : ScheduleDoc) (s : WallpaperWindow) :
    loadXml env (some (d.tokens sep)) s
      = some (true,
          { s with m_startTime := env.makeDateTime d.startTimeFields,
                   m_events := s.m_events ++ d.events.map EventElem.toEvent }) := by
  have hlen : 2 * d.events.length + 19 ≤ (d.tokens sep).length := by
    have := eventTokens_length sep d.events
    simp only [ScheduleDoc.tokens, ScheduleDoc.startTimeTokens, fieldTokens, List.length_append,
      List.length_cons, List.length_nil]
    omega
  simp only [loadXml]
  rw [loadLoop_document env sep d s _ (by omega)]
  rfl

/-! ## Further tick lemmas -/

theorem updateWallpaper_no_events (w : World) (s : WallpaperWindow) (h : s.m_events = []) :
    updateWallpaper w s = s := by
  simp [updateWallpaper, schedule, h]

theorem schedule_overrun (events : List Event) (secondsSinceStart : Int)
    (hne : events ≠ []) (hT : totalDuration events ≠ 0)
    (hover : events.length ≤
      (scanEvents (Int.tmod secondsSinceStart (totalDuration events)) events 0 0).1) :
    schedule events secondsSinceStart
      = some (0, Int.tmod secondsSinceStart (totalDuration events) - totalDuration events) := by
  have hemp : events.isEmpty = false := by
    cases events with
    | nil => exact absurd rfl hne
    | cons e rest => rfl
  have hacc := scanEvents_overrun (Int.tmod secondsSinceStart (totalDuration events)) events 0 0
    (by omega)
  simp only [schedule, hemp, hT, if_false, Bool.false_eq_true]
  simp only [ge_iff_le, hover, if_true, hacc]
  rfl

/-! ## Builder properties -/

/-- C11 (amended): for every list of n image paths with 2 <= n <= 47 the
builder writes a schedule whose durations sum to n * staticDuration + n * 1800,
where staticDuration = (86400 - n * 1800) / n by integer division; this sum is
86400 - (86400 mod n): it is at most 86400, more than 86400 - n, and equal to
86400 exactly when n divides 86400. -/
theorem builder_cycle_length (images : List String)
    (h2 : 2 ≤ images.length) (h47 : images.length ≤ 47) :
    ∃ entries, buildSchedule images = some entries ∧
      durationSum entries
        = (images.length : Int) * staticDuration (images.length : Int)
          + (images.length : Int) * 1800 ∧
      durationSum entries = 86400 - 86400 % (images.length : Int) ∧
      86400 - (images.length : Int) < durationSum entries ∧
      durationSum entries ≤ 86400 ∧
      (durationSum entries = 86400 ↔ (images.length : Int) ∣ 86400) := by
  have hn : totalImages images = (images.length : Int) := wrap32_natCast _ (by omega)
  have hlt : ¬ images.length < 2 := by omega
  have hsum := staticDuration_sum (images.length : Int) (by omega) (by omega)
  have hds : durationSum (writeEntries images (staticDuration (images.length : Int))
      images.length 0) = 86400 - 86400 % (images.length : Int) := by
    rw [writeEntries_durationSum]
    simpa [TRANSITION_DURATION] using hsum
  have hm0 : 0 ≤ 86400 % (images.length : Int) := Int.emod_nonneg _ (by omega)
  have hm1 : 86400 % (images.length : Int) < (images.length : Int) :=
    Int.emod_lt_of_pos _ (by omega)
  refine ⟨writeEntries images (staticDuration (images.length : Int)) images.length 0,
    by simp [buildSchedule, hlt, hn], ?_, hds, ?_, ?_, ?_⟩
  · rw [hds, hsum]
  · rw [hds]; omega
  · rw [hds]; omega
  · rw [hds, Int.dvd_iff_emod_eq_zero]
    constructor <;> intro h <;> omega

/-- Witness of C11 (amended): seven images. -/
theorem builder_cycle_length_witness :
    ∃ entries, buildSchedule (manyImages 7) = some entries ∧
      durationSum entries
        = ((manyImages 7).length : Int) * staticDuration ((manyImages 7).length : Int)
          + ((manyImages 7).length : Int) * 1800 ∧
      durationSum entries = 86400 - 86400 % ((manyImages 7).length : Int) ∧
      86400 - ((manyImages 7).length : Int) < durationSum entries ∧
      durationSum entries ≤ 86400 ∧
      (durationSum entries = 86400 ↔ ((manyImages 7).length : Int) ∣ 86400) :=
  builder_cycle_length (manyImages 7) (by decide) (by decide)

/-- Counterexample to C11 as stated: for 7 images the static duration is
10542 and the durations written sum to 86394, six seconds short of 24 hours. -/
theorem builder_cycle_short_of_a_day :
    staticDuration 7 = 10542 ∧
    7 * staticDuration 7 + 7 * 1800 = 86394 ∧
    (buildSchedule (manyImages 7)).map durationSum = some 86394 ∧
    (buildSchedule (manyImages 7)).map totalDuration = some 86394 := by
  decide

/-- C12: for every list of n >= 2 image paths (as sorted at line 42) the
builder writes 2n entries, n static and n transition ones, alternating: entry
2i is the static entry of image i with the duration `staticDuration`, the value
the `int` expression (86400 - n * 1800) / n takes, and entry 2i + 1 is the
transition of duration 1800 from image i to image (i + 1) mod n, so that the
last transition leads back to the first image; up to 1193046 images the `int`
expression is the exact truncated quotient; for n = 3 the static duration is
27000 and there are 3 static and 3 transition entries. -/
theorem builder_entries (images : List String) (h2 : 2 ≤ images.length) :
    ∃ entries, buildSchedule images = some entries ∧
      entries.length = 2 * images.length ∧
      entries.countP Event.isStatic = images.length ∧
      entries.countP (fun e => !e.isStatic) = images.length ∧
      (∀ i, i < images.length →
        entries[2 * i]?
          = some (.Static ⟨staticDuration (totalImages images), images.getD i ""⟩) ∧
        entries[2 * i + 1]?
          = some (.Transition ⟨1800, images.getD i "",
              images.getD ((i + 1) % images.length) ""⟩)) ∧
      entries[2 * (images.length - 1) + 1]?
        = some (.Transition ⟨1800, images.getD (images.length - 1) "", images.getD 0 ""⟩) ∧
      (images.length ≤ 1193046 →
        staticDuration (totalImages images)
          = Int.tdiv (86400 - (images.length : Int) * 1800) (images.length : Int)) ∧
      (images.length = 3 → staticDuration (totalImages images) = 27000 ∧
        entries.countP Event.isStatic = 3 ∧ entries.countP (fun e => !e.isStatic) = 3) := by
  have hlt : ¬ images.length < 2 := by omega
  have hcount := writeEntries_countP images (staticDuration (totalImages images)) images.length 0
  have hget : ∀ i, i < images.length →
      (writeEntries images (staticDuration (totalImages images)) images.length 0)[2 * i]?
        = some (.Static ⟨staticDuration (totalImages images), images.getD i ""⟩) ∧
      (writeEntries images (staticDuration (totalImages images)) images.length 0)[2 * i + 1]?
        = some (.Transition ⟨1800, images.getD i "",
            images.getD ((i + 1) % images.length) ""⟩) := by
    intro i hi
    have h := writeEntries_getElem images (staticDuration (totalImages images)) images.length 0 i hi
    simpa [TRANSITION_DURATION] using h
  refine ⟨writeEntries images (staticDuration (totalImages images)) images.length 0,
    by simp [buildSchedule, hlt], writeEntries_length _ _ _ _, hcount.1, hcount.2, hget, ?_, ?_, ?_⟩
  · have h := (hget (images.length - 1) (by omega)).2
    have hmod : (images.length - 1 + 1) % images.length = 0 := by
      have : images.length - 1 + 1 = images.length := by omega
      rw [this, Nat.mod_self]
    rw [hmod] at h
    exact h
  · intro hb
    have hn : totalImages images = (images.length : Int) := wrap32_natCast _ (by omega)
    rw [hn]
    exact staticDuration_eq _ (by omega) (by omega)
  · intro h3
    have hn : totalImages images = 3 := by
      rw [totalImages, h3]; decide
    exact ⟨by rw [hn]; decide, by rw [hcount.1, h3], by rw [hcount.2, h3]⟩

/-- Witness of C12: the three images `A`, `B`, `C`. -/
theorem builder_entries_witness :
    ∃ entries, buildSchedule (manyImages 3) = some entries ∧
      entries.length = 2 * (manyImages 3).length ∧
      entries.countP Event.isStatic = (manyImages 3).length ∧
      entries.countP (fun e => !e.isStatic) = (manyImages 3).length ∧
      (∀ i, i < (manyImages 3).length →
        entries[2 * i]?
          = some (.Static ⟨staticDuration (totalImages (manyImages 3)),
              (manyImages 3).getD i ""⟩) ∧
        entries[2 * i + 1]?
          = some (.Transition ⟨1800, (manyImages 3).getD i "",
              (manyImages 3).getD ((i + 1) % (manyImages 3).length) ""⟩)) ∧
      entries[2 * ((manyImages 3).length - 1) + 1]?
        = some (.Transition ⟨1800, (manyImages 3).getD ((manyImages 3).length - 1) "",
            (manyImages 3).getD 0 ""⟩) ∧
      ((manyImages 3).length ≤ 1193046 →
        staticDuration (totalImages (manyImages 3))
          = Int.tdiv (86400 - ((manyImages 3).length : Int) * 1800)
              ((manyImages 3).length : Int)) ∧
      ((manyImages 3).length = 3 → staticDuration (totalImages (manyImages 3)) = 27000 ∧
        entries.countP Event.isStatic = 3 ∧ entries.countP (fun e => !e.isStatic) = 3) :=
  builder_entries (manyImages 3) (by decide)

/-- C16 (the code at its failing inputs): for 48 images the builder writes the
static duration 0, and for 49 images the static duration -36. -/
theorem builder_duration_not_positive :
    (manyImages 48).length = 48 ∧
    staticDuration (totalImages (manyImages 48)) = 0 ∧
    (buildSchedule (manyImages 48)).map List.head? = some (some (.Static ⟨0, "A"⟩)) ∧
    (manyImages 49).length = 49 ∧
    staticDuration (totalImages (manyImages 49)) = -36 ∧
    (buildSchedule (manyImages 49)).map List.head? = some (some (.Static ⟨-36, "A"⟩)) := by
  decide

/-! ## Further scheduler properties -/

/-- C13: for every timeline whose durations are positive `int` values, every
anchor and every two times t1 < t2 of the same cycle c (anchor + c * totalDuration
<= t < anchor + (c + 1) * totalDuration), the scheduler step yields a result at
both times and the event index at t1 is at most the event index at t2. -/
theorem resolve_monotone_in_cycle (events : List Event) (anchor c t1 t2 : Int)
    (hpos : ∀ e ∈ events, 0 < e.duration) (hint : ∀ e ∈ events, e.duration ≤ 2147483647)
    (h1 : anchor + c * totalDuration events ≤ t1) (h12 : t1 < t2)
    (h2 : t2 < anchor + (c + 1) * totalDuration events) :
    ∃ i1 el1 i2 el2, resolve events anchor t1 = some (i1, el1) ∧
      resolve events anchor t2 = some (i2, el2) ∧ i1 ≤ i2 := by
  have hexp : (c + 1) * totalDuration events = c * totalDuration events + totalDuration events := by
    ring
  have hT : 0 < totalDuration events := by
    rw [hexp] at h2
    linarith
  have hT0 : ¬ totalDuration events = 0 := by omega
  obtain ⟨e, rest, hev⟩ : ∃ e rest, events = e :: rest := by
    cases events with
    | nil => simp [totalDuration] at hT
    | cons e rest => exact ⟨e, rest, rfl⟩
  have hemp : events.isEmpty = false := by rw [hev]; rfl
  have hres : ∀ t, resolve events anchor t =
      some ((if events.length ≤ (scanEvents (Int.tmod (t - anchor) (totalDuration events)) events 0 0).1
              then 0 else (scanEvents (Int.tmod (t - anchor) (totalDuration events)) events 0 0).1),
            Int.tmod (t - anchor) (totalDuration events)
              - (scanEvents (Int.tmod (t - anchor) (totalDuration events)) events 0 0).2) := by
    intro t
    simp [resolve, schedule, secsTo, hemp, hT0]
  refine ⟨_, _, _, _, hres t1, hres t2, ?_⟩
  by_cases hc : 0 ≤ c
  · have hcT : 0 ≤ c * totalDuration events := mul_nonneg hc hT.le
    have hl : ∀ t, anchor + c * totalDuration events ≤ t →
        t < anchor + (c + 1) * totalDuration events →
        Int.tmod (t - anchor) (totalDuration events) = t - anchor - c * totalDuration events := by
      intro t ha hb
      rw [hexp] at hb
      rw [Int.tmod_eq_emod (by linarith) hT.le]
      have e : t - anchor = (t - anchor - c * totalDuration events) + c * totalDuration events := by
        ring
      rw [e, Int.add_mul_emod_self]
      rw [← e]
      exact Int.emod_eq_of_lt (by linarith) (by linarith)
    have hl1 := hl t1 h1 (by linarith)
    have hl2 := hl t2 (by linarith) h2
    rw [hl1, hl2]
    have hlt2 : t2 - anchor - c * totalDuration events < totalDuration events := by
      rw [hexp] at h2; linarith
    have hfound := scanEvents_found (t2 - anchor - c * totalDuration events) events 0 0
      (by rw [hev]; simp) hlt2
    have hmono := scanEvents_mono (t1 - anchor - c * totalDuration events)
      (t2 - anchor - c * totalDuration events) (by linarith) events 0 0
    have h2n : ¬ events.length ≤
        (scanEvents (t2 - anchor - c * totalDuration events) events 0 0).1 := by omega
    simp only [h2n, if_false]
    split
    · omega
    · exact hmono
  · have hc1 : c + 1 ≤ 0 := by omega
    have hcT : (c + 1) * totalDuration events ≤ 0 :=
      mul_nonpos_of_nonpos_of_nonneg hc1 hT.le
    have hzero : ∀ t, t < anchor + (c + 1) * totalDuration events →
        (scanEvents (Int.tmod (t - anchor) (totalDuration events)) events 0 0).1 = 0 := by
      intro t hb
      have hneg : Int.tmod (t - anchor) (totalDuration events) ≤ 0 :=
        tmod_nonpos_of_nonpos _ _ (by linarith)
      have hd := hpos e (by rw [hev]; exact List.mem_cons_self _ _)
      have hd2 := hint e (by rw [hev]; exact List.mem_cons_self _ _)
      have hw : wrap32 e.duration = e.duration :=
        wrap32_of_inRange _ (by omega) (by omega)
      rw [hev]
      have hlt : Int.tmod (t - anchor) (totalDuration (e :: rest)) < e.duration := by
        rw [← hev]; omega
      simp [scanEvents, hw, hlt]
    rw [hzero t1 (by linarith), hzero t2 h2]

/-- Witness of C13: the example timeline anchored at second 100, at the
seconds 103 and 125 of its first cycle. -/
theorem resolve_monotone_in_cycle_witness :
    ∃ i1 el1 i2 el2, resolve exampleTimeline 100 103 = some (i1, el1) ∧
      resolve exampleTimeline 100 125 = some (i2, el2) ∧ i1 ≤ i2 :=
  resolve_monotone_in_cycle exampleTimeline 100 0 103 125 (by decide) (by decide) (by decide)
    (by decide) (by decide)

/-- C17 (amended): for every timeline with all durations positive and summing
to less than 2^31, and every loop position p with 0 <= p < totalDuration, the
scan stops at the index i whose interval [prefix(i), prefix(i) + duration(i))
contains p, with prefix(i) the sum of the durations before i as the accumulated
value; the stored elapsed time is p - prefix(i); no other index has an interval
containing p; and at a boundary p = prefix(j) with j >= 1 the later event j is
selected with elapsed time 0. -/
theorem scan_selects_containing_interval (events : List Event) (p : Int)
    (hpos : ∀ e ∈ events, 0 < e.duration) (hsum : durationSum events < 2147483648)
    (h0 : 0 ≤ p) (hp : p < totalDuration events) :
    ∃ i, ∃ h : i < events.length,
      scanEvents p events 0 0 = (i, durationSum (events.take i)) ∧
      schedule events p = some (i, p - durationSum (events.take i)) ∧
      durationSum (events.take i) ≤ p ∧
      p < durationSum (events.take i) + (events[i]).duration ∧
      (∀ j, ∀ hj : j < events.length, durationSum (events.take j) ≤ p →
        p < durationSum (events.take j) + (events[j]).duration → j = i) ∧
      (∀ j, 1 ≤ j → j < events.length → p = durationSum (events.take j) →
        i = j ∧ p - durationSum (events.take i) = 0) := by
  have htot := totalDuration_eq_durationSum events hpos hsum
  rw [htot] at hp
  obtain ⟨i, hi, hscan, hlo, hhi⟩ :=
    scanEvents_spec p events 0 0 hpos (le_refl _) (by omega) h0 (by omega)
  simp only [zero_add] at hscan hlo hhi
  have huniq : ∀ j, ∀ hj : j < events.length, durationSum (events.take j) ≤ p →
      p < durationSum (events.take j) + (events[j]).duration → j = i := by
    intro j hj hjlo hjhi
    rcases Nat.lt_trichotomy j i with hlt | heq | hgt
    · have hm := durationSum_take_mono events hpos (j + 1) i (by omega)
      rw [durationSum_take_succ events j hj] at hm
      omega
    · exact heq
    · have hm := durationSum_take_mono events hpos (i + 1) j (by omega)
      rw [durationSum_take_succ events i hi] at hm
      omega
  refine ⟨i, hi, hscan, ?_, hlo, hhi, huniq, ?_⟩
  · have hemp : events.isEmpty = false := by
      cases events with
      | nil => simp at hi
      | cons e rest => rfl
    have hT0 : ¬ durationSum events = 0 := by omega
    have hil : ¬ events.length ≤ i := by omega
    have hmod : Int.tmod p (durationSum events) = p := Int.tmod_eq_of_lt h0 hp
    simp [schedule, hemp, htot, hT0, hmod, hscan, hil]
  · intro j _ hj hpj
    have hd := hpos (events[j]) (List.getElem_mem _)
    have hji := huniq j hj (by omega) (by omega)
    subst hji
    exact ⟨rfl, by omega⟩

/-- Witness of C17 (amended): the example timeline at loop position 10, the
boundary between its two events. -/
theorem scan_selects_containing_interval_witness :
    ∃ i, ∃ h : i < exampleTimeline.length,
      scanEvents 10 exampleTimeline 0 0 = (i, durationSum (exampleTimeline.take i)) ∧
      schedule exampleTimeline 10 = some (i, 10 - durationSum (exampleTimeline.take i)) ∧
      durationSum (exampleTimeline.take i) ≤ 10 ∧
      10 < durationSum (exampleTimeline.take i) + (exampleTimeline[i]).duration ∧
      (∀ j, ∀ hj : j < exampleTimeline.length, durationSum (exampleTimeline.take j) ≤ 10 →
        10 < durationSum (exampleTimeline.take j) + (exampleTimeline[j]).duration → j = i) ∧
      (∀ j, 1 ≤ j → j < exampleTimeline.length → 10 = durationSum (exampleTimeline.take j) →
        i = j ∧ 10 - durationSum (exampleTimeline.take i) = 0) :=
  scan_selects_containing_interval exampleTimeline 10 (by decide) (by decide) (by decide)
    (by decide)

/-- Counterexample to C17 as stated: the durations 5, 2147483647, 2147483647,
20 are positive and the `int` total is 23; the loop position 10 lies in the
interval [5, 5 + 2147483647) of event 1, but the `int` sums wrap around and the
scan selects event 3 with elapsed time 7; the interval of event 3 starts beyond
10. -/
theorem scan_wraps_past_interval :
    (∀ e ∈ wrappingTimeline, 0 < e.duration) ∧
    totalDuration wrappingTimeline = 23 ∧
    durationSum (wrappingTimeline.take 1) ≤ 10 ∧
    10 < durationSum (wrappingTimeline.take 1) + (Event.Static ⟨2147483647, "B"⟩).duration ∧
    wrappingTimeline[1]? = some (.Static ⟨2147483647, "B"⟩) ∧
    scanEvents 10 wrappingTimeline 0 0 = (3, 3) ∧
    schedule wrappingTimeline 10 = some (3, 7) ∧
    ¬ (durationSum (wrappingTimeline.take 3) ≤ 10) := by
  decide

/-- C18 (the code at a failing input): for the one-event timeline of duration
-10 and 5 seconds since the anchor, the total is -10, the loop position is 5,
the scan matches no interval (it ends with index 1, the number of events, and
accumulated -10), and the stored result is index 0 with elapsed time
5 - (-10) = 15, not 0. -/
theorem fallback_keeps_accumulated :
    totalDuration [.Static ⟨-10, "A"⟩] = -10 ∧
    Int.tmod 5 (-10) = 5 ∧
    scanEvents 5 [.Static ⟨-10, "A"⟩] 0 0 = (1, -10) ∧
    resolve [.Static ⟨-10, "A"⟩] 0 5 = some (0, 15) := by
  decide

/-! ## Further image cache properties -/

/-- C19: for every window whose cache is reachable from the empty cache and
every Transition event whose `fromFile` and `toFile` both decode, after the
two calls `cacheImage(fromFile)`, `cacheImage(toFile)` of the tick both keys
are in the cache, and the images read back into `m_transitionFromImage` and
`m_transitionToImage` are the stored values of these keys: images the decoder
returned for these paths, not the null image. -/
theorem transition_images_cached (calls : List (String × QImage)) (w : World)
    (s : WallpaperWindow) (te : TransitionEvent)
    (hcache : s.cache = cacheImages ImageCache.empty calls)
    (hf : (w.decode te.fromFile).isNull = false) (ht : (w.decode te.toFile).isNull = false) :
    (cacheImage (cacheImage s.cache te.fromFile (w.decode te.fromFile)) te.toFile
      (w.decode te.toFile)).m_imageCache.contains te.fromFile = true ∧
    (cacheImage (cacheImage s.cache te.fromFile (w.decode te.fromFile)) te.toFile
      (w.decode te.toFile)).m_imageCache.contains te.toFile = true ∧
    (loadEventImages w s (.Transition te)).cache
      = cacheImage (cacheImage s.cache te.fromFile (w.decode te.fromFile)) te.toFile
          (w.decode te.toFile) ∧
    (loadEventImages w s (.Transition te)).m_transitionFromImage
      = (loadEventImages w s (.Transition te)).cache.m_imageCache.value te.fromFile ∧
    (loadEventImages w s (.Transition te)).m_transitionToImage
      = (loadEventImages w s (.Transition te)).cache.m_imageCache.value te.toFile ∧
    (loadEventImages w s (.Transition te)).m_transitionFromImage.isNull = false ∧
    (loadEventImages w s (.Transition te)).m_transitionToImage.isNull = false ∧
    (te.fromFile, (loadEventImages w s (.Transition te)).m_transitionFromImage)
      ∈ (loadEventImages w s (.Transition te)).cache.decoded ∧
    (te.toFile, (loadEventImages w s (.Transition te)).m_transitionToImage)
      ∈ (loadEventImages w s (.Transition te)).cache.decoded := by
  have hinv := cacheImages_coherent ImageCache.empty calls coherent_empty (by simp [ImageCache.empty])
  have hdec := cacheImages_allDecoded ImageCache.empty calls allDecoded_empty
  rw [← hcache] at hinv hdec
  have hpair := cacheImage_pair_contains s.cache te.fromFile te.toFile (w.decode te.fromFile)
    (w.decode te.toFile) hinv.1 hf ht
  have hdec2 := cacheImage_allDecoded _ te.toFile (w.decode te.toFile)
    (cacheImage_allDecoded s.cache te.fromFile (w.decode te.fromFile) hdec)
  have hvf := AllDecoded.value_decoded _ hdec2 _ hpair.1
  have hvt := AllDecoded.value_decoded _ hdec2 _ hpair.2
  exact ⟨hpair.1, hpair.2, rfl, rfl, rfl, hvf.1, hvt.1, hvf.2, hvt.2⟩

/-- Witness of C19: the cache that loaded `a`, `b`, `c` and the crossfade
from `A` to `B`, both of which decode. -/
theorem transition_images_cached_witness :
    (cacheImage (cacheImage warmWindow.cache "A" (workingWorld.decode "A")) "B"
      (workingWorld.decode "B")).m_imageCache.contains "A" = true ∧
    (cacheImage (cacheImage warmWindow.cache "A" (workingWorld.decode "A")) "B"
      (workingWorld.decode "B")).m_imageCache.contains "B" = true ∧
    (loadEventImages workingWorld warmWindow (.Transition ⟨20, "A", "B"⟩)).cache
      = cacheImage (cacheImage warmWindow.cache "A" (workingWorld.decode "A")) "B"
          (workingWorld.decode "B") ∧
    (loadEventImages workingWorld warmWindow (.Transition ⟨20, "A", "B"⟩)).m_transitionFromImage
      = (loadEventImages workingWorld warmWindow
          (.Transition ⟨20, "A", "B"⟩)).cache.m_imageCache.value "A" ∧
    (loadEventImages workingWorld warmWindow (.Transition ⟨20, "A", "B"⟩)).m_transitionToImage
      = (loadEventImages workingWorld warmWindow
          (.Transition ⟨20, "A", "B"⟩)).cache.m_imageCache.value "B" ∧
    (loadEventImages workingWorld warmWindow
      (.Transition ⟨20, "A", "B"⟩)).m_transitionFromImage.isNull = false ∧
    (loadEventImages workingWorld warmWindow
      (.Transition ⟨20, "A", "B"⟩)).m_transitionToImage.isNull = false ∧
    ("A", (loadEventImages workingWorld warmWindow
        (.Transition ⟨20, "A", "B"⟩)).m_transitionFromImage)
      ∈ (loadEventImages workingWorld warmWindow (.Transition ⟨20, "A", "B"⟩)).cache.decoded ∧
    ("B", (loadEventImages workingWorld warmWindow
        (.Transition ⟨20, "A", "B"⟩)).m_transitionToImage)
      ∈ (loadEventImages workingWorld warmWindow (.Transition ⟨20, "A", "B"⟩)).cache.decoded :=
  transition_images_cached threeCalls workingWorld warmWindow ⟨20, "A", "B"⟩ rfl
    (by decide) (by decide)

/-- C20: starting from the empty cache, after every sequence of `cacheImage`
calls the recency list `m_cacheOrder` contains no key twice, the hash has one
entry per key, and a key is in `m_cacheOrder` exactly when it is a key of
`m_imageCache`; hence both have the same number of entries. -/
theorem cache_order_coherent (calls : List (String × QImage)) :
    (cacheImages ImageCache.empty calls).m_cacheOrder.Nodup ∧
    (cacheImages ImageCache.empty calls).m_imageCache.keys.Nodup ∧
    (∀ k, k ∈ (cacheImages ImageCache.empty calls).m_cacheOrder ↔
      (cacheImages ImageCache.empty calls).m_imageCache.contains k = true) ∧
    (cacheImages ImageCache.empty calls).m_cacheOrder.length
      = (cacheImages ImageCache.empty calls).m_imageCache.size := by
  have h := (cacheImages_coherent ImageCache.empty calls coherent_empty
    (by simp [ImageCache.empty])).1
  refine ⟨h.1, h.2.1, ?_, (Coherent.size_eq _ h).symm⟩
  intro k
  rw [QHash.contains_iff]
  exact h.2.2 k

/-! ## Loader properties -/

/-- C14 (amended): for every schedule document that holds the start time and no
static and no transition element, `loadXml` returns, reports success, and
leaves the event list empty; `m_startTime` is set from the six fields, and
every later tick returns at the empty-list guard without changing the window. -/
theorem loadXml_empty_schedule (env : LoadEnv) (sep : String) (d : ScheduleDoc)
    (s : WallpaperWindow) (w : World) (hd : d.events = []) (hs : s.m_events = []) :
    ∃ r, loadXml env (some (d.tokens sep)) s = some (true, r) ∧
      r.m_events = [] ∧
      r.m_startTime = env.makeDateTime d.startTimeFields ∧
      updateWallpaper w r = r := by
  refine ⟨_, loadXml_document env sep d s, ?_, rfl, ?_⟩
  · simp [hd, hs]
  · exact updateWallpaper_no_events w _ (by simp [hd, hs])

/-- Witness of C14 (amended): the document with the start time 2001-01-01
00:00:00 and no event, loaded into a window without events. -/
theorem loadXml_empty_schedule_witness :
    ∃ r, loadXml plainEnv (some (emptyScheduleDoc.tokens "\n")) emptyWindow = some (true, r) ∧
      r.m_events = [] ∧
      r.m_startTime = plainEnv.makeDateTime emptyScheduleDoc.startTimeFields ∧
      updateWallpaper brokenWorld r = r :=
  loadXml_empty_schedule plainEnv "\n" emptyScheduleDoc emptyWindow brokenWorld
    (by decide) (by decide)

/-- Counterexample to C14 as stated: the document with a start time and no
static and no transition element is loaded with the result `true` and an empty
event list. -/
theorem loadXml_accepts_empty_schedule :
    emptyScheduleDoc.events = [] ∧
    (loadXml plainEnv (some (emptyScheduleDoc.tokens "\n")) emptyWindow).map
        (fun r => (r.1, r.2.m_events)) = some (true, []) := by
  decide

/-- C15 (amended): for every schedule document in which the static or
transition element at position i has a duration text that is not a number,
`loadXml` returns and reports success, it produces one event per element, and
the event at position i is the one of that element with the duration 0 that
`QString::toInt` gives for such a text. -/
theorem loadXml_non_numeric_duration (env : LoadEnv) (sep : String) (d : ScheduleDoc)
    (s : WallpaperWindow) (i : Nat) (elem : EventElem)
    (hs : s.m_events = []) (hi : d.events[i]? = some elem)
    (hnum : isNumber elem.durationText = false) :
    ∃ r, loadXml env (some (d.tokens sep)) s = some (true, r) ∧
      r.m_events.length = d.events.length ∧
      r.m_events[i]? = some elem.toEvent ∧
      elem.toEvent.duration = toInt elem.durationText ∧
      elem.toEvent.duration = 0 := by
  have hzero : toInt elem.durationText = 0 := by
    simp only [isNumber] at hnum
    cases hp : parseInt elem.durationText with
    | none => simp [toInt, hp]
    | some v => rw [hp] at hnum; exact Bool.noConfusion hnum
  have hdur : elem.toEvent.duration = toInt elem.durationText := by
    cases elem <;> rfl
  refine ⟨_, loadXml_document env sep d s, ?_, ?_, hdur, ?_⟩
  · simp [hs]
  · simp [hs, hi]
  · rw [hdur, hzero]

/-- Witness of C15 (amended): the document whose first element is a static
element with the duration text `abc`. -/
theorem loadXml_non_numeric_duration_witness :
    ∃ r, loadXml plainEnv (some (badDurationDoc.tokens "\n")) emptyWindow = some (true, r) ∧
      r.m_events.length = badDurationDoc.events.length ∧
      r.m_events[0]? = some (EventElem.static "abc" "A").toEvent ∧
      (EventElem.static "abc" "A").toEvent.duration
        = toInt (EventElem.static "abc" "A").durationText ∧
      (EventElem.static "abc" "A").toEvent.duration = 0 :=
  loadXml_non_numeric_duration plainEnv "\n" badDurationDoc emptyWindow 0
    (.static "abc" "A") (by decide) (by decide) (by decide)

/-- Counterexample to C15 as stated: the static element with the duration text
`abc`, which is not a number, is loaded with the result `true` as a static
event of duration 0. -/
theorem loadXml_accepts_non_numeric_duration :
    badDurationDoc.events[0]? = some (.static "abc" "A") ∧
    isNumber "abc" = false ∧
    (loadXml plainEnv (some (badDurationDoc.tokens "\n")) emptyWindow).map
        (fun r => (r.1, r.2.m_events))
      = some (true, [.Static ⟨0, "A"⟩, .Transition ⟨20, "A", "B"⟩]) := by
  decide

end QtWallXml
